import Mathlib

/-!
# Wrim lexer (`lexer/lexer.go`): embedding and verified properties

The Go package `lexer` is embedded shallowly, twice.

* The definitions directly under `Wrim` read the cursor fields `position` and
  `readPosition` as natural numbers.  They describe the scanner for as long as
  `readPosition` stays within the range of Go's `int`.
* The definitions under `Wrim.Machine` are the same code with Go's fixed-width
  `int`: `readPosition++` wraps around from `MaxInt` to `MinInt`, and a byte
  index or slice bound that is negative panics.  `MaxInt` is the parameter
  `maxInt` (2^31 - 1 or 2^63 - 1 in Go).  `Machine.NextToken_lift` shows that
  the two embeddings agree on every call that starts the final `readChar` below
  `MaxInt`; properties about unboundedly many calls are stated on `Machine`.

Common to both:

* A Go `string` is an immutable sequence of bytes: `List Nat` here, every
  element standing for one byte (a value below 256).  No definition below
  relies on that bound except `byteToString`, which documents it.
* A Go run-time panic (byte index or slice bounds out of range) is the result
  `none`.  The three `for` loops of the source run on an iteration budget
  computed from the input length; a budget that runs out is `none` as well.
  `loopWhile_total` below shows that the budget never runs out.
* `fmt.Printf` writes one line per produced token when `Debug` is set; the
  written lines are returned next to the token as the list `out`.
* Package `token` is a separate package whose source is not in `lexer/`: the
  token kinds are modelled from the specification and `token.LookupIdent` is a
  parameter of `NextToken`.
-/

namespace Wrim

/-- Modelled from the spec: the closed enumeration of token kinds of package
`token` (`token.TokenType` and its constants), which is not among the sources.
The spec lists `ILLEGAL, EOF, IDENT, INT, ASSIGN, PLUS, COMMA, SEMICOLON,
LPAREN, RPAREN, LBRACE, RBRACE, FUNCTION, LET`. -/
inductive TokenType where
  | ILLEGAL | EOF | IDENT | INT
  | ASSIGN | PLUS | COMMA | SEMICOLON
  | LPAREN | RPAREN | LBRACE | RBRACE
  | FUNCTION | LET
  deriving DecidableEq, Repr

/-- Modelled from the spec: `token.Token`, a kind (`Type` in Go, a reserved
word here, hence `Typ`) and the literal text as a byte string. -/
structure Token where
  Typ : TokenType
  Literal : List Nat
  deriving DecidableEq, Repr

/-- The Go struct `Lexer`. -/
structure Lexer where
  input : List Nat
  position : Nat
  readPosition : Nat
  ch : Nat
  Debug : Bool
  deriving DecidableEq, Repr

/-- Result of one `NextToken` call: the returned token, the lexer after the
call, and the lines written by `fmt.Printf` (one entry per line, recording the
kind and literal that were formatted). -/
structure Step where
  tok : Token
  lexer : Lexer
  out : List Token
  deriving DecidableEq, Repr

/-- Go `readChar`: `input[readPosition]` is a checked byte index. -/
def readChar (l : Lexer) : Option Lexer :=
  if l.readPosition ≥ l.input.length then
    some { l with ch := 0, position := l.readPosition, readPosition := l.readPosition + 1 }
  else
    match l.input[l.readPosition]? with
    | none => none
    | some b =>
      some { l with ch := b, position := l.readPosition, readPosition := l.readPosition + 1 }

/-- Go `New`: a lexer with all other fields zero, then one `readChar`. -/
def New (input : List Nat) : Option Lexer :=
  readChar { input := input, position := 0, readPosition := 0, ch := 0, Debug := false }

/-- Go `isLetter`: `'a' <= ch && ch <= 'z' || 'A' <= ch && ch <= 'Z' || ch == '_'`. -/
def isLetter (ch : Nat) : Bool :=
  (decide (97 ≤ ch) && decide (ch ≤ 122)) || (decide (65 ≤ ch) && decide (ch ≤ 90))
    || decide (ch = 95)

/-- Go `isDigit`: `'0' <= ch && ch <= '9'`. -/
def isDigit (ch : Nat) : Bool :=
  decide (48 ≤ ch) && decide (ch ≤ 57)

/-- The loop condition of Go `skipWhitespace`:
`ch == ' ' || ch == '\t' || ch == '\n' || ch == '\r'`. -/
def isWhitespace (ch : Nat) : Bool :=
  decide (ch = 32) || decide (ch = 9) || decide (ch = 10) || decide (ch = 13)

/-- The Go loop `for cond(l.ch) { l.readChar() }` on an iteration budget. -/
def loopWhile (cond : Nat → Bool) : Nat → Lexer → Option Lexer
  | 0, _ => none
  | fuel + 1, l =>
    if cond l.ch then
      match readChar l with
      | none => none
      | some l' => loopWhile cond fuel l'
    else some l

/-- Iteration budget of the loops: each iteration advances `readPosition`, and
the iteration that reads at or past the end sets `ch` to 0, which ends every
loop of the source. -/
def budget (l : Lexer) : Nat := l.input.length + 2

/-- Go `skipWhitespace`. -/
def skipWhitespace (l : Lexer) : Option Lexer :=
  loopWhile isWhitespace (budget l) l

/-- Go slice expression `s[lo:hi]` on a string, which panics unless
`0 <= lo <= hi <= len(s)`. -/
def slice (s : List Nat) (lo hi : Nat) : Option (List Nat) :=
  if lo ≤ hi ∧ hi ≤ s.length then some ((s.drop lo).take (hi - lo)) else none

/-- Go `readIdentifier`: the text read and the lexer afterwards. -/
def readIdentifier (l : Lexer) : Option (List Nat × Lexer) :=
  let pos := l.position
  match loopWhile isLetter (budget l) l with
  | none => none
  | some l' =>
    match slice l'.input pos l'.position with
    | none => none
    | some s => some (s, l')

/-- Go `readNumber`: the text read and the lexer afterwards. -/
def readNumber (l : Lexer) : Option (List Nat × Lexer) :=
  let pos := l.position
  match loopWhile isDigit (budget l) l with
  | none => none
  | some l' =>
    match slice l'.input pos l'.position with
    | none => none
    | some s => some (s, l')

/-- Go conversion `string(ch)` of a `byte`: converting an integer to a string
yields the UTF-8 encoding of the code point with that number.  A byte below
0x80 gives the one-byte string holding it; a byte from 0x80 to 0xFF gives the
two bytes `0xC0 | ch>>6`, `0x80 | ch&0x3F`. -/
def byteToString (ch : Nat) : List Nat :=
  if ch < 128 then [ch] else [192 + ch / 64, 128 + ch % 64]

/-- Go `newToken`. -/
def newToken (t : TokenType) (ch : Nat) : Token :=
  { Typ := t, Literal := byteToString ch }

/-- Go `SetDebug`. -/
def SetDebug (l : Lexer) (d : Bool) : Lexer :=
  { l with Debug := d }

/-- The statement `if l.Debug { fmt.Printf(..., tok.Type, tok.Literal) }`: the
lines written. -/
def debugPrint (l : Lexer) (tok : Token) : List Token :=
  if l.Debug then [tok] else []

/-- The tail of Go `NextToken` after the `switch`: print when debugging, then
`readChar`, then return the token. -/
def finish (l : Lexer) (tok : Token) : Option Step :=
  match readChar l with
  | none => none
  | some l' => some { tok := tok, lexer := l', out := debugPrint l tok }

/-- Go `NextToken`; `LookupIdent` stands for `token.LookupIdent`.  Bytes of
the `switch`: `=` 61, `+` 43, `(` 40, `)` 41, `{` 123, `}` 125, `,` 44,
`;` 59. -/
def NextToken (LookupIdent : List Nat → TokenType) (l0 : Lexer) : Option Step :=
  match skipWhitespace l0 with
  | none => none
  | some l =>
    if l.ch = 61 then finish l (newToken TokenType.ASSIGN l.ch)
    else if l.ch = 43 then finish l (newToken TokenType.PLUS l.ch)
    else if l.ch = 40 then finish l (newToken TokenType.LPAREN l.ch)
    else if l.ch = 41 then finish l (newToken TokenType.RPAREN l.ch)
    else if l.ch = 123 then finish l (newToken TokenType.LBRACE l.ch)
    else if l.ch = 125 then finish l (newToken TokenType.RBRACE l.ch)
    else if l.ch = 44 then finish l (newToken TokenType.COMMA l.ch)
    else if l.ch = 59 then finish l (newToken TokenType.SEMICOLON l.ch)
    else if l.ch = 0 then finish l { Typ := TokenType.EOF, Literal := [] }
    else if isLetter l.ch then
      match readIdentifier l with
      | none => none
      | some (lit, l') =>
        let tok : Token := { Typ := LookupIdent lit, Literal := lit }
        some { tok := tok, lexer := l', out := debugPrint l' tok }
    else if isDigit l.ch then
      match readNumber l with
      | none => none
      | some (lit, l') =>
        let tok : Token := { Typ := TokenType.INT, Literal := lit }
        some { tok := tok, lexer := l', out := debugPrint l' tok }
    else finish l (newToken TokenType.ILLEGAL l.ch)

/-! ## Drivers used to state the properties -/

/-- `n` successive `NextToken` calls: the tokens returned, in order, and the
lexer after the last call. -/
def run (LookupIdent : List Nat → TokenType) : Nat → Lexer → Option (List Token × Lexer)
  | 0, l => some ([], l)
  | n + 1, l =>
    match NextToken LookupIdent l with
    | none => none
    | some s =>
      match run LookupIdent n s.lexer with
      | none => none
      | some (ts, l') => some (s.tok :: ts, l')

/-- The tokens of the first `n` `NextToken` calls on `New(input)`. -/
def tokens (LookupIdent : List Nat → TokenType) (input : List Nat) (n : Nat) :
    Option (List Token) :=
  match New input with
  | none => none
  | some l => (run LookupIdent n l).map Prod.fst

/-- Calls `NextToken` until a token of kind `EOF` has been returned and
collects the tokens up to and including it; `none` when that does not happen
within `fuel` calls. -/
def lexAll (LookupIdent : List Nat → TokenType) : Nat → Lexer → Option (List Token)
  | 0, _ => none
  | fuel + 1, l =>
    match NextToken LookupIdent l with
    | none => none
    | some s =>
      if s.tok.Typ = TokenType.EOF then some [s.tok]
      else (lexAll LookupIdent fuel s.lexer).map (fun ts => s.tok :: ts)

/-- The tokens of `New(input)` up to and including the first `EOF`. -/
def scan (LookupIdent : List Nat → TokenType) (input : List Nat) : Option (List Token) :=
  match New input with
  | none => none
  | some l => lexAll LookupIdent (input.length + 1) l

/-- The lexer at position `p` of `input` in the shape every reachable state
has: `readPosition = position + 1` and `ch` the byte at `position`, or 0 at or
past the end. -/
def atPos (input : List Nat) (p : Nat) (d : Bool) : Lexer :=
  { input := input, position := p, readPosition := p + 1, ch := input.getD p 0, Debug := d }

/-- A keyword lookup used in examples: `let` and `fn` are the reserved words. -/
def sampleLookup (s : List Nat) : TokenType :=
  if s = [108, 101, 116] then TokenType.LET
  else if s = [102, 110] then TokenType.FUNCTION
  else TokenType.IDENT

/-- The eight single-character symbols of the `switch` with their kinds. -/
def symbolTable : List (Nat × TokenType) :=
  [(61, TokenType.ASSIGN), (43, TokenType.PLUS), (40, TokenType.LPAREN),
   (41, TokenType.RPAREN), (123, TokenType.LBRACE), (125, TokenType.RBRACE),
   (44, TokenType.COMMA), (59, TokenType.SEMICOLON)]

/-- The five ways a `NextToken` call can go, by the first byte `c` at or after
`p` that is not whitespace (at index `p1`): what token is returned and where
the cursor `q` stands afterwards. -/
def StepShape (LookupIdent : List Nat → TokenType) (input : List Nat) (p1 q : Nat)
    (tok : Token) : Prop :=
  (input.getD p1 0 = 0 ∧ tok = { Typ := TokenType.EOF, Literal := [] } ∧ q = p1 + 1) ∨
  (∃ k, (input.getD p1 0, k) ∈ symbolTable ∧
    tok = { Typ := k, Literal := [input.getD p1 0] } ∧ q = p1 + 1) ∨
  (isLetter (input.getD p1 0) = true ∧ p1 < q ∧ q ≤ input.length ∧
    (∀ i, i < q → p1 ≤ i → isLetter (input.getD i 0) = true) ∧
    isLetter (input.getD q 0) = false ∧
    tok = { Typ := LookupIdent ((input.drop p1).take (q - p1)),
            Literal := (input.drop p1).take (q - p1) }) ∨
  (isDigit (input.getD p1 0) = true ∧ p1 < q ∧ q ≤ input.length ∧
    (∀ i, i < q → p1 ≤ i → isDigit (input.getD i 0) = true) ∧
    isDigit (input.getD q 0) = false ∧
    tok = { Typ := TokenType.INT, Literal := (input.drop p1).take (q - p1) }) ∨
  (input.getD p1 0 ≠ 0 ∧ (∀ k, (input.getD p1 0, k) ∉ symbolTable) ∧
    isLetter (input.getD p1 0) = false ∧ isDigit (input.getD p1 0) = false ∧
    tok = newToken TokenType.ILLEGAL (input.getD p1 0) ∧ q = p1 + 1)

/-- In a token list, every `EOF` token has empty text and is followed by
nothing but `EOF` tokens with empty text. -/
def EOFSticky (ts : List Token) : Prop :=
  ∀ pre t post, ts = pre ++ t :: post → t.Typ = TokenType.EOF →
    t = { Typ := TokenType.EOF, Literal := [] } ∧
    ∀ u ∈ post, u = { Typ := TokenType.EOF, Literal := [] }

/-- The result of a call, with the `Debug` flag of the lexer set to `d` and the
written lines replaced by those written under `Debug = d`. -/
def withDebug (d : Bool) (s : Step) : Step :=
  { tok := s.tok, lexer := SetDebug s.lexer d, out := if d then [s.tok] else [] }

/-- A second keyword lookup used in examples: `let` is the only reserved
word. -/
def letLookup (s : List Nat) : TokenType :=
  if s = [108, 101, 116] then TokenType.LET else TokenType.IDENT

/-! ## The same code with Go's fixed-width `int` -/

namespace Machine

/-- Go `x++` on an `int` whose largest value is `maxInt`: the increment wraps
around from `MaxInt` to `MinInt = -(MaxInt + 1)`. -/
def incr (maxInt : Nat) (x : Int) : Int :=
  if x = (maxInt : Int) then -((maxInt : Int) + 1) else x + 1

/-- The Go struct `Lexer`, with `position` and `readPosition` as Go `int`s. -/
structure Lexer where
  input : List Nat
  position : Int
  readPosition : Int
  ch : Nat
  Debug : Bool
  deriving DecidableEq, Repr

/-- Result of one `NextToken` call: the returned token, the lexer after the
call, and the lines written by `fmt.Printf`. -/
structure Step where
  tok : Token
  lexer : Lexer
  out : List Token
  deriving DecidableEq, Repr

/-- Go byte index `s[i]` with an `int` index, which panics unless
`0 <= i < len(s)`. -/
def index (s : List Nat) (i : Int) : Option Nat :=
  if 0 ≤ i then s[i.toNat]? else none

/-- Go `readChar`. -/
def readChar (maxInt : Nat) (l : Lexer) : Option Lexer :=
  if l.readPosition ≥ (l.input.length : Int) then
    some { l with ch := 0, position := l.readPosition,
                  readPosition := incr maxInt l.readPosition }
  else
    match index l.input l.readPosition with
    | none => none
    | some b =>
      some { l with ch := b, position := l.readPosition,
                    readPosition := incr maxInt l.readPosition }

/-- Go `New`: a lexer with all other fields zero, then one `readChar`. -/
def New (maxInt : Nat) (input : List Nat) : Option Lexer :=
  readChar maxInt { input := input, position := 0, readPosition := 0, ch := 0, Debug := false }

/-- The Go loop `for cond(l.ch) { l.readChar() }` on an iteration budget. -/
def loopWhile (maxInt : Nat) (cond : Nat → Bool) : Nat → Lexer → Option Lexer
  | 0, _ => none
  | fuel + 1, l =>
    if cond l.ch then
      match readChar maxInt l with
      | none => none
      | some l' => loopWhile maxInt cond fuel l'
    else some l

/-- Iteration budget of the loops, as in `Wrim.budget`. -/
def budget (l : Lexer) : Nat := l.input.length + 2

/-- Go `skipWhitespace`. -/
def skipWhitespace (maxInt : Nat) (l : Lexer) : Option Lexer :=
  loopWhile maxInt isWhitespace (budget l) l

/-- Go slice expression `s[lo:hi]` with `int` bounds, which panics unless
`0 <= lo <= hi <= len(s)`. -/
def slice (s : List Nat) (lo hi : Int) : Option (List Nat) :=
  if 0 ≤ lo ∧ lo ≤ hi ∧ hi ≤ (s.length : Int) then
    some ((s.drop lo.toNat).take (hi.toNat - lo.toNat))
  else none

/-- Go `readIdentifier`: the text read and the lexer afterwards. -/
def readIdentifier (maxInt : Nat) (l : Lexer) : Option (List Nat × Lexer) :=
  let pos := l.position
  match loopWhile maxInt isLetter (budget l) l with
  | none => none
  | some l' =>
    match slice l'.input pos l'.position with
    | none => none
    | some s => some (s, l')

/-- Go `readNumber`: the text read and the lexer afterwards. -/
def readNumber (maxInt : Nat) (l : Lexer) : Option (List Nat × Lexer) :=
  let pos := l.position
  match loopWhile maxInt isDigit (budget l) l with
  | none => none
  | some l' =>
    match slice l'.input pos l'.position with
    | none => none
    | some s => some (s, l')

/-- The statement `if l.Debug { fmt.Printf(..., tok.Type, tok.Literal) }`: the
lines written. -/
def debugPrint (l : Lexer) (tok : Token) : List Token :=
  if l.Debug then [tok] else []

/-- The tail of Go `NextToken` after the `switch`: print when debugging, then
`readChar`, then return the token. -/
def finish (maxInt : Nat) (l : Lexer) (tok : Token) : Option Step :=
  match readChar maxInt l with
  | none => none
  | some l' => some { tok := tok, lexer := l', out := debugPrint l tok }

/-- Go `NextToken`; `LookupIdent` stands for `token.LookupIdent`. -/
def NextToken (maxInt : Nat) (LookupIdent : List Nat → TokenType) (l0 : Lexer) :
    Option Step :=
  match skipWhitespace maxInt l0 with
  | none => none
  | some l =>
    if l.ch = 61 then finish maxInt l (newToken TokenType.ASSIGN l.ch)
    else if l.ch = 43 then finish maxInt l (newToken TokenType.PLUS l.ch)
    else if l.ch = 40 then finish maxInt l (newToken TokenType.LPAREN l.ch)
    else if l.ch = 41 then finish maxInt l (newToken TokenType.RPAREN l.ch)
    else if l.ch = 123 then finish maxInt l (newToken TokenType.LBRACE l.ch)
    else if l.ch = 125 then finish maxInt l (newToken TokenType.RBRACE l.ch)
    else if l.ch = 44 then finish maxInt l (newToken TokenType.COMMA l.ch)
    else if l.ch = 59 then finish maxInt l (newToken TokenType.SEMICOLON l.ch)
    else if l.ch = 0 then finish maxInt l { Typ := TokenType.EOF, Literal := [] }
    else if isLetter l.ch then
      match readIdentifier maxInt l with
      | none => none
      | some (lit, l') =>
        let tok : Token := { Typ := LookupIdent lit, Literal := lit }
        some { tok := tok, lexer := l', out := debugPrint l' tok }
    else if isDigit l.ch then
      match readNumber maxInt l with
      | none => none
      | some (lit, l') =>
        let tok : Token := { Typ := TokenType.INT, Literal := lit }
        some { tok := tok, lexer := l', out := debugPrint l' tok }
    else finish maxInt l (newToken TokenType.ILLEGAL l.ch)

/-- `n` successive `NextToken` calls: the tokens returned, in order, and the
lexer after the last call; `none` when one of the calls panics. -/
def run (maxInt : Nat) (LookupIdent : List Nat → TokenType) :
    Nat → Lexer → Option (List Token × Lexer)
  | 0, l => some ([], l)
  | n + 1, l =>
    match NextToken maxInt LookupIdent l with
    | none => none
    | some s =>
      match run maxInt LookupIdent n s.lexer with
      | none => none
      | some (ts, l') => some (s.tok :: ts, l')

/-- The tokens of the first `n` `NextToken` calls on `New(input)`. -/
def tokens (maxInt : Nat) (LookupIdent : List Nat → TokenType) (input : List Nat) (n : Nat) :
    Option (List Token) :=
  match New maxInt input with
  | none => none
  | some l => (run maxInt LookupIdent n l).map Prod.fst

/-- Calls `NextToken` until a token of kind `EOF` has been returned and
collects the tokens up to and including it; `none` when that does not happen
within `fuel` calls or a call panics. -/
def lexAll (maxInt : Nat) (LookupIdent : List Nat → TokenType) :
    Nat → Lexer → Option (List Token)
  | 0, _ => none
  | fuel + 1, l =>
    match NextToken maxInt LookupIdent l with
    | none => none
    | some s =>
      if s.tok.Typ = TokenType.EOF then some [s.tok]
      else (lexAll maxInt LookupIdent fuel s.lexer).map (fun ts => s.tok :: ts)

/-- The tokens of `New(input)` up to and including the first `EOF`. -/
def scan (maxInt : Nat) (LookupIdent : List Nat → TokenType) (input : List Nat) :
    Option (List Token) :=
  match New maxInt input with
  | none => none
  | some l => lexAll maxInt LookupIdent (input.length + 1) l

/-- The Go `int` that a natural-number counter stands for once it has been
incremented from 0: itself up to `MaxInt`, and wrapped around past it. -/
def wrap (maxInt : Nat) (n : Nat) : Int :=
  if n ≤ maxInt then (n : Int) else (n : Int) - 2 * ((maxInt : Int) + 1)

/-- The fixed-width state that a state of the first embedding stands for. -/
def lift (maxInt : Nat) (l : Wrim.Lexer) : Lexer :=
  { input := l.input, position := wrap maxInt l.position,
    readPosition := wrap maxInt l.readPosition, ch := l.ch, Debug := l.Debug }

/-- The fixed-width result that a result of the first embedding stands for. -/
def liftStep (maxInt : Nat) (s : Wrim.Step) : Step :=
  { tok := s.tok, lexer := lift maxInt s.lexer, out := s.out }

/-- The state at cursor `p` in the shape every state reached from `New` has:
`position = p`, `readPosition` the Go increment of `p`, and `ch` the byte at
`p`, or 0 at or past the end. -/
def atCursor (maxInt : Nat) (input : List Nat) (p : Nat) (d : Bool) : Lexer :=
  lift maxInt (atPos input p d)

end Machine

/-! ## Basic facts -/

theorem isWhitespace_zero : isWhitespace 0 = false := by decide
theorem isLetter_zero : isLetter 0 = false := by decide
theorem isDigit_zero : isDigit 0 = false := by decide

theorem readChar_eq (l : Lexer) :
    readChar l = some { l with ch := l.input.getD l.readPosition 0,
                               position := l.readPosition,
                               readPosition := l.readPosition + 1 } := by
  unfold readChar
  by_cases h : l.readPosition ≥ l.input.length
  · have h' : l.input.length ≤ l.readPosition := h
    simp [h, List.getD_eq_default _ _ h', List.getElem?_eq_none h']
  · have h' : l.readPosition < l.input.length := by omega
    simp [h, List.getElem?_eq_getElem h', List.getD_eq_getElem _ _ h']

theorem readChar_atPos (input : List Nat) (p : Nat) (d : Bool) :
    readChar (atPos input p d) = some (atPos input (p + 1) d) := by
  rw [readChar_eq]; rfl

theorem New_eq (input : List Nat) : New input = some (atPos input 0 false) := by
  unfold New; rw [readChar_eq]; rfl

theorem loopWhile_succ (cond : Nat → Bool) (fuel : Nat) (l : Lexer) :
    loopWhile cond (fuel + 1) l =
      if cond l.ch then
        match readChar l with
        | none => none
        | some l' => loopWhile cond fuel l'
      else some l := rfl

theorem getD_cond_lt (cond : Nat → Bool) (h0 : cond 0 = false) (input : List Nat) (p : Nat)
    (h : cond (input.getD p 0) = true) : p < input.length := by
  by_contra hge
  rw [List.getD_eq_default _ _ (by omega)] at h
  rw [h0] at h
  exact Bool.noConfusion h

/-- The loop `for cond(l.ch) { l.readChar() }` started at position `p` stops at
the first position `q ≥ p` whose byte fails `cond`. -/
theorem loopWhile_atPos (cond : Nat → Bool) (h0 : cond 0 = false) (input : List Nat)
    (d : Bool) : ∀ (fuel p : Nat), input.length + 1 ≤ fuel + p → 1 ≤ fuel →
    ∃ q, p ≤ q ∧ (p ≤ input.length → q ≤ input.length) ∧
      (∀ i, i < q → p ≤ i → cond (input.getD i 0) = true) ∧
      cond (input.getD q 0) = false ∧
      loopWhile cond fuel (atPos input p d) = some (atPos input q d) := by
  intro fuel
  induction fuel with
  | zero => intro p _ h1; omega
  | succ f ih =>
    intro p hf _
    by_cases hc : cond (input.getD p 0) = true
    · have hlt := getD_cond_lt cond h0 input p hc
      obtain ⟨q, hpq, hql, hall, hq, hrun⟩ := ih (p + 1) (by omega) (by omega)
      refine ⟨q, by omega, fun _ => hql (by omega), ?_, hq, ?_⟩
      · intro i hiq hpi
        by_cases hip : i = p
        · rw [hip]; exact hc
        · exact hall i hiq (by omega)
      · have hc' : cond (atPos input p d).ch = true := hc
        rw [loopWhile_succ, if_pos hc', readChar_atPos]
        exact hrun
    · have hc' : cond (atPos input p d).ch = false := by
        simpa [atPos] using hc
      refine ⟨p, le_refl _, fun h => h, fun i h1 h2 => by omega, by simpa using hc, ?_⟩
      rw [loopWhile_succ, hc']; rfl

/-- No loop of the source exhausts its iteration budget or panics, whatever
the lexer state. -/
theorem loopWhile_total (cond : Nat → Bool) (h0 : cond 0 = false) (l : Lexer) :
    ∃ l', loopWhile cond (budget l) l = some l' := by
  unfold budget
  by_cases hc : cond l.ch = true
  · obtain ⟨q, -, -, -, -, hrun⟩ :=
      loopWhile_atPos cond h0 l.input l.Debug (l.input.length + 1) l.readPosition
        (by omega) (by omega)
    refine ⟨atPos l.input q l.Debug, ?_⟩
    have : readChar l = some (atPos l.input l.readPosition l.Debug) := by
      rw [readChar_eq]; rfl
    show loopWhile cond ((l.input.length + 1) + 1) l = _
    rw [loopWhile_succ, if_pos hc, this]
    exact hrun
  · refine ⟨l, ?_⟩
    show loopWhile cond ((l.input.length + 1) + 1) l = _
    rw [loopWhile_succ, if_neg hc]

theorem mem_symbolTable (c : Nat) (k : TokenType) :
    (c, k) ∈ symbolTable ↔
      (c = 61 ∧ k = TokenType.ASSIGN) ∨ (c = 43 ∧ k = TokenType.PLUS) ∨
      (c = 40 ∧ k = TokenType.LPAREN) ∨ (c = 41 ∧ k = TokenType.RPAREN) ∨
      (c = 123 ∧ k = TokenType.LBRACE) ∨ (c = 125 ∧ k = TokenType.RBRACE) ∨
      (c = 44 ∧ k = TokenType.COMMA) ∨ (c = 59 ∧ k = TokenType.SEMICOLON) := by
  simp [symbolTable]

/-- The loop stops exactly at `q` when `q` is the first position from `p` on
whose byte fails `cond`. -/
theorem loopWhile_atPos_eq (cond : Nat → Bool) (h0 : cond 0 = false) (input : List Nat)
    (d : Bool) (p q : Nat) (hpq : p ≤ q)
    (hrun : ∀ i, i < q → p ≤ i → cond (input.getD i 0) = true)
    (hstop : cond (input.getD q 0) = false) :
    loopWhile cond (budget (atPos input p d)) (atPos input p d) = some (atPos input q d) := by
  obtain ⟨q', hpq', -, hall, hq', hrun'⟩ :=
    loopWhile_atPos cond h0 input d (input.length + 2) p (by omega) (by omega)
  have hqq : q' = q := by
    rcases Nat.lt_trichotomy q' q with h | h | h
    · rw [hrun q' h hpq'] at hq'; exact Bool.noConfusion hq'
    · exact h
    · rw [hall q h hpq] at hstop; exact Bool.noConfusion hstop
  rw [← hqq]; exact hrun'

theorem finish_atPos (input : List Nat) (p : Nat) (d : Bool) (tok : Token) :
    finish (atPos input p d) tok =
      some { tok := tok, lexer := atPos input (p + 1) d, out := if d then [tok] else [] } := by
  unfold finish
  rw [readChar_atPos]
  rfl

theorem skipWhitespace_atPos_eq (input : List Nat) (d : Bool) (p p1 : Nat) (hp : p ≤ p1)
    (hws : ∀ i, i < p1 → p ≤ i → isWhitespace (input.getD i 0) = true)
    (hnw : isWhitespace (input.getD p1 0) = false) :
    skipWhitespace (atPos input p d) = some (atPos input p1 d) :=
  loopWhile_atPos_eq isWhitespace isWhitespace_zero input d p p1 hp hws hnw

theorem slice_eq (input : List Nat) (p q : Nat) (hpq : p ≤ q) (hq : q ≤ input.length) :
    slice input p q = some ((input.drop p).take (q - p)) := by
  simp [slice, hpq, hq]

theorem readIdentifier_atPos (input : List Nat) (d : Bool) (p q : Nat) (hpq : p ≤ q)
    (hrun : ∀ i, i < q → p ≤ i → isLetter (input.getD i 0) = true)
    (hstop : isLetter (input.getD q 0) = false) (hq : q ≤ input.length) :
    readIdentifier (atPos input p d) =
      some ((input.drop p).take (q - p), atPos input q d) := by
  have h := loopWhile_atPos_eq isLetter isLetter_zero input d p q hpq hrun hstop
  have hs := slice_eq input p q hpq hq
  simp only [readIdentifier, h]
  simp only [atPos, hs]

theorem readNumber_atPos (input : List Nat) (d : Bool) (p q : Nat) (hpq : p ≤ q)
    (hrun : ∀ i, i < q → p ≤ i → isDigit (input.getD i 0) = true)
    (hstop : isDigit (input.getD q 0) = false) (hq : q ≤ input.length) :
    readNumber (atPos input p d) =
      some ((input.drop p).take (q - p), atPos input q d) := by
  have h := loopWhile_atPos_eq isDigit isDigit_zero input d p q hpq hrun hstop
  have hs := slice_eq input p q hpq hq
  simp only [readNumber, h]
  simp only [atPos, hs]

/-- A run of `cond` bytes that starts at `p < len` ends at or before `len`. -/
theorem run_le_length (cond : Nat → Bool) (h0 : cond 0 = false) (input : List Nat)
    (p q : Nat) (hp : p ≤ input.length)
    (hrun : ∀ i, i < q → p ≤ i → cond (input.getD i 0) = true) : q ≤ input.length := by
  by_contra hlt
  have := hrun input.length (by omega) hp
  rw [List.getD_eq_default _ _ (le_refl _), h0] at this
  exact Bool.noConfusion this

section branches

variable (LookupIdent : List Nat → TokenType) (input : List Nat) (d : Bool) (p p1 : Nat)
  (hp : p ≤ p1) (hws : ∀ i, i < p1 → p ≤ i → isWhitespace (input.getD i 0) = true)

include hp hws

theorem NextToken_symbol (k : TokenType) (hk : (input.getD p1 0, k) ∈ symbolTable) :
    NextToken LookupIdent (atPos input p d) =
      some { tok := { Typ := k, Literal := [input.getD p1 0] },
             lexer := atPos input (p1 + 1) d,
             out := if d then [{ Typ := k, Literal := [input.getD p1 0] }] else [] } := by
  have hnw : isWhitespace (input.getD p1 0) = false := by
    rw [mem_symbolTable] at hk
    rcases hk with h | h | h | h | h | h | h | h <;> (rw [h.1]; decide)
  have hskip := skipWhitespace_atPos_eq input d p p1 hp hws hnw
  simp only [NextToken, hskip, finish_atPos]
  have hch : (atPos input p1 d).ch = input.getD p1 0 := rfl
  simp only [hch]
  rw [mem_symbolTable] at hk
  rcases hk with h | h | h | h | h | h | h | h <;>
    (obtain ⟨h1, h2⟩ := h; rw [h1, h2]; rfl)

theorem NextToken_zero (hc : input.getD p1 0 = 0) :
    NextToken LookupIdent (atPos input p d) =
      some { tok := { Typ := TokenType.EOF, Literal := [] },
             lexer := atPos input (p1 + 1) d,
             out := if d then [{ Typ := TokenType.EOF, Literal := [] }] else [] } := by
  have hnw : isWhitespace (input.getD p1 0) = false := by rw [hc]; decide
  have hskip := skipWhitespace_atPos_eq input d p p1 hp hws hnw
  simp only [NextToken, hskip, finish_atPos]
  have hch : (atPos input p1 d).ch = input.getD p1 0 := rfl
  simp only [hch, hc]
  rfl

theorem NextToken_letter (q : Nat) (hp1q : p1 ≤ q) (hl : isLetter (input.getD p1 0) = true)
    (hrun : ∀ i, i < q → p1 ≤ i → isLetter (input.getD i 0) = true)
    (hstop : isLetter (input.getD q 0) = false) :
    NextToken LookupIdent (atPos input p d) =
      some { tok := { Typ := LookupIdent ((input.drop p1).take (q - p1)),
                      Literal := (input.drop p1).take (q - p1) },
             lexer := atPos input q d,
             out := if d then [{ Typ := LookupIdent ((input.drop p1).take (q - p1)),
                                 Literal := (input.drop p1).take (q - p1) }] else [] } := by
  have hlt := getD_cond_lt isLetter isLetter_zero input p1 hl
  have hq := run_le_length isLetter isLetter_zero input p1 q (by omega) hrun
  have hnw : isWhitespace (input.getD p1 0) = false := by
    generalize input.getD p1 0 = c at hl
    simp only [isLetter, isWhitespace, Bool.or_eq_true, Bool.and_eq_true, decide_eq_true_eq,
      Bool.or_eq_false_iff, decide_eq_false_iff_not] at hl ⊢
    omega
  have hskip := skipWhitespace_atPos_eq input d p p1 hp hws hnw
  have hrd := readIdentifier_atPos input d p1 q hp1q hrun hstop hq
  have hch : (atPos input p1 d).ch = input.getD p1 0 := rfl
  have h1 : input.getD p1 0 ≠ 61 ∧ input.getD p1 0 ≠ 43 ∧ input.getD p1 0 ≠ 40 ∧
      input.getD p1 0 ≠ 41 ∧ input.getD p1 0 ≠ 123 ∧ input.getD p1 0 ≠ 125 ∧
      input.getD p1 0 ≠ 44 ∧ input.getD p1 0 ≠ 59 ∧ input.getD p1 0 ≠ 0 := by
    generalize input.getD p1 0 = c at hl
    simp only [isLetter, Bool.or_eq_true, Bool.and_eq_true, decide_eq_true_eq] at hl
    omega
  obtain ⟨a1, a2, a3, a4, a5, a6, a7, a8, a9⟩ := h1
  simp only [NextToken, hskip, hch, if_neg a1, if_neg a2, if_neg a3, if_neg a4, if_neg a5,
    if_neg a6, if_neg a7, if_neg a8, if_neg a9, hl, if_true, hrd]
  rfl

theorem NextToken_digit (q : Nat) (hp1q : p1 ≤ q) (hl : isDigit (input.getD p1 0) = true)
    (hrun : ∀ i, i < q → p1 ≤ i → isDigit (input.getD i 0) = true)
    (hstop : isDigit (input.getD q 0) = false) :
    NextToken LookupIdent (atPos input p d) =
      some { tok := { Typ := TokenType.INT, Literal := (input.drop p1).take (q - p1) },
             lexer := atPos input q d,
             out := if d then [{ Typ := TokenType.INT,
                                 Literal := (input.drop p1).take (q - p1) }] else [] } := by
  have hlt := getD_cond_lt isDigit isDigit_zero input p1 hl
  have hq := run_le_length isDigit isDigit_zero input p1 q (by omega) hrun
  have hnw : isWhitespace (input.getD p1 0) = false := by
    generalize input.getD p1 0 = c at hl
    simp only [isDigit, isWhitespace, Bool.or_eq_true, Bool.and_eq_true, decide_eq_true_eq,
      Bool.or_eq_false_iff, decide_eq_false_iff_not] at hl ⊢
    omega
  have hskip := skipWhitespace_atPos_eq input d p p1 hp hws hnw
  have hrd := readNumber_atPos input d p1 q hp1q hrun hstop hq
  have hch : (atPos input p1 d).ch = input.getD p1 0 := rfl
  have h1 : input.getD p1 0 ≠ 61 ∧ input.getD p1 0 ≠ 43 ∧ input.getD p1 0 ≠ 40 ∧
      input.getD p1 0 ≠ 41 ∧ input.getD p1 0 ≠ 123 ∧ input.getD p1 0 ≠ 125 ∧
      input.getD p1 0 ≠ 44 ∧ input.getD p1 0 ≠ 59 ∧ input.getD p1 0 ≠ 0 ∧
      isLetter (input.getD p1 0) = false := by
    generalize input.getD p1 0 = c at hl
    simp only [isDigit, isLetter, Bool.or_eq_false_iff, Bool.and_eq_false_iff,
      Bool.and_eq_true, decide_eq_true_eq, decide_eq_false_iff_not] at hl ⊢
    omega
  obtain ⟨a1, a2, a3, a4, a5, a6, a7, a8, a9, a10⟩ := h1
  simp only [NextToken, hskip, hch, if_neg a1, if_neg a2, if_neg a3, if_neg a4, if_neg a5,
    if_neg a6, if_neg a7, if_neg a8, if_neg a9, a10, hl, if_true, hrd]
  rfl

theorem NextToken_other (hnw : isWhitespace (input.getD p1 0) = false)
    (hs : ∀ k, (input.getD p1 0, k) ∉ symbolTable) (h0 : input.getD p1 0 ≠ 0)
    (hl : isLetter (input.getD p1 0) = false) (hd : isDigit (input.getD p1 0) = false) :
    NextToken LookupIdent (atPos input p d) =
      some { tok := newToken TokenType.ILLEGAL (input.getD p1 0),
             lexer := atPos input (p1 + 1) d,
             out := if d then [newToken TokenType.ILLEGAL (input.getD p1 0)] else [] } := by
  have hskip := skipWhitespace_atPos_eq input d p p1 hp hws hnw
  have hch : (atPos input p1 d).ch = input.getD p1 0 := rfl
  have a1 : input.getD p1 0 ≠ 61 := fun h =>
    hs TokenType.ASSIGN ((mem_symbolTable _ _).2 (Or.inl ⟨h, rfl⟩))
  have a2 : input.getD p1 0 ≠ 43 := fun h =>
    hs TokenType.PLUS ((mem_symbolTable _ _).2 (Or.inr (Or.inl ⟨h, rfl⟩)))
  have a3 : input.getD p1 0 ≠ 40 := fun h =>
    hs TokenType.LPAREN ((mem_symbolTable _ _).2 (Or.inr (Or.inr (Or.inl ⟨h, rfl⟩))))
  have a4 : input.getD p1 0 ≠ 41 := fun h =>
    hs TokenType.RPAREN ((mem_symbolTable _ _).2 (Or.inr (Or.inr (Or.inr (Or.inl ⟨h, rfl⟩)))))
  have a5 : input.getD p1 0 ≠ 123 := fun h =>
    hs TokenType.LBRACE ((mem_symbolTable _ _).2
      (Or.inr (Or.inr (Or.inr (Or.inr (Or.inl ⟨h, rfl⟩))))))
  have a6 : input.getD p1 0 ≠ 125 := fun h =>
    hs TokenType.RBRACE ((mem_symbolTable _ _).2
      (Or.inr (Or.inr (Or.inr (Or.inr (Or.inr (Or.inl ⟨h, rfl⟩)))))))
  have a7 : input.getD p1 0 ≠ 44 := fun h =>
    hs TokenType.COMMA ((mem_symbolTable _ _).2
      (Or.inr (Or.inr (Or.inr (Or.inr (Or.inr (Or.inr (Or.inl ⟨h, rfl⟩))))))))
  have a8 : input.getD p1 0 ≠ 59 := fun h =>
    hs TokenType.SEMICOLON ((mem_symbolTable _ _).2
      (Or.inr (Or.inr (Or.inr (Or.inr (Or.inr (Or.inr (Or.inr ⟨h, rfl⟩))))))))
  simp only [NextToken, hskip, hch, if_neg a1, if_neg a2, if_neg a3, if_neg a4, if_neg a5,
    if_neg a6, if_neg a7, if_neg a8, if_neg h0, hl, hd, finish_atPos]
  rfl

end branches

/-- Every `NextToken` call from a state of the reachable shape returns a
token, leaves a state of the same shape, and is one of the five cases. -/
theorem NextToken_atPos (LookupIdent : List Nat → TokenType) (input : List Nat) (d : Bool)
    (p : Nat) :
    ∃ tok p1 q, p ≤ p1 ∧ p1 < q ∧ (p ≤ input.length → p1 ≤ input.length) ∧
      (∀ i, i < p1 → p ≤ i → isWhitespace (input.getD i 0) = true) ∧
      isWhitespace (input.getD p1 0) = false ∧
      StepShape LookupIdent input p1 q tok ∧
      NextToken LookupIdent (atPos input p d) =
        some { tok := tok, lexer := atPos input q d, out := if d then [tok] else [] } := by
  obtain ⟨p1, hp, hp1l, hws, hnw, -⟩ :=
    loopWhile_atPos isWhitespace isWhitespace_zero input d (input.length + 2) p
      (by omega) (by omega)
  by_cases h0 : input.getD p1 0 = 0
  · exact ⟨_, p1, p1 + 1, hp, by omega, hp1l, hws, hnw, Or.inl ⟨h0, rfl, rfl⟩,
      NextToken_zero LookupIdent input d p p1 hp hws h0⟩
  by_cases hs : ∃ k, (input.getD p1 0, k) ∈ symbolTable
  · obtain ⟨k, hk⟩ := hs
    exact ⟨_, p1, p1 + 1, hp, by omega, hp1l, hws, hnw, Or.inr (Or.inl ⟨k, hk, rfl, rfl⟩),
      NextToken_symbol LookupIdent input d p p1 hp hws k hk⟩
  by_cases hl : isLetter (input.getD p1 0) = true
  · have hlt := getD_cond_lt isLetter isLetter_zero input p1 hl
    obtain ⟨q, hq1, hql, hrun, hstop, -⟩ :=
      loopWhile_atPos isLetter isLetter_zero input d (input.length + 2) p1
        (by omega) (by omega)
    have hne : p1 ≠ q := by
      intro h; rw [← h, hl] at hstop; exact Bool.noConfusion hstop
    exact ⟨_, p1, q, hp, by omega, hp1l, hws, hnw,
      Or.inr (Or.inr (Or.inl ⟨hl, by omega, hql (by omega), hrun, hstop, rfl⟩)),
      NextToken_letter LookupIdent input d p p1 hp hws q hq1 hl hrun hstop⟩
  by_cases hd : isDigit (input.getD p1 0) = true
  · have hlt := getD_cond_lt isDigit isDigit_zero input p1 hd
    obtain ⟨q, hq1, hql, hrun, hstop, -⟩ :=
      loopWhile_atPos isDigit isDigit_zero input d (input.length + 2) p1
        (by omega) (by omega)
    have hne : p1 ≠ q := by
      intro h; rw [← h, hd] at hstop; exact Bool.noConfusion hstop
    exact ⟨_, p1, q, hp, by omega, hp1l, hws, hnw,
      Or.inr (Or.inr (Or.inr (Or.inl ⟨hd, by omega, hql (by omega), hrun, hstop, rfl⟩))),
      NextToken_digit LookupIdent input d p p1 hp hws q hq1 hd hrun hstop⟩
  · have hl' : isLetter (input.getD p1 0) = false := by simpa using hl
    have hd' : isDigit (input.getD p1 0) = false := by simpa using hd
    have hs' : ∀ k, (input.getD p1 0, k) ∉ symbolTable := fun k hk => hs ⟨k, hk⟩
    exact ⟨_, p1, p1 + 1, hp, by omega, hp1l, hws, hnw,
      Or.inr (Or.inr (Or.inr (Or.inr ⟨h0, hs', hl', hd', rfl, rfl⟩))),
      NextToken_other LookupIdent input d p p1 hp hws hnw hs' h0 hl' hd'⟩

theorem symbolTable_ne_EOF (c : Nat) (k : TokenType) (h : (c, k) ∈ symbolTable) :
    k ≠ TokenType.EOF := by
  rw [mem_symbolTable] at h
  rcases h with h | h | h | h | h | h | h | h <;> (rw [h.2]; decide)

theorem lexAll_succ (LookupIdent : List Nat → TokenType) (fuel : Nat) (l : Lexer) :
    lexAll LookupIdent (fuel + 1) l =
      match NextToken LookupIdent l with
      | none => none
      | some s =>
        if s.tok.Typ = TokenType.EOF then some [s.tok]
        else (lexAll LookupIdent fuel s.lexer).map (fun ts => s.tok :: ts) := rfl

theorem sampleLookup_ne_EOF (s : List Nat) : sampleLookup s ≠ TokenType.EOF := by
  unfold sampleLookup
  split
  · decide
  · split <;> decide

theorem run_succ (LookupIdent : List Nat → TokenType) (n : Nat) (l : Lexer) :
    run LookupIdent (n + 1) l =
      match NextToken LookupIdent l with
      | none => none
      | some s =>
        match run LookupIdent n s.lexer with
        | none => none
        | some (ts, l') => some (s.tok :: ts, l') := rfl

/-- Any number of calls from a state of the reachable shape succeeds, and the
cursor never moves back. -/
theorem run_atPos (LookupIdent : List Nat → TokenType) (input : List Nat) (d : Bool) :
    ∀ (n p : Nat), ∃ ts q, p ≤ q ∧ ts.length = n ∧
      run LookupIdent n (atPos input p d) = some (ts, atPos input q d) := by
  intro n
  induction n with
  | zero => intro p; exact ⟨[], p, le_refl _, rfl, rfl⟩
  | succ n ih =>
    intro p
    obtain ⟨tok, p1, q, hp1, hq, -, -, -, -, hstep⟩ := NextToken_atPos LookupIdent input d p
    obtain ⟨ts, q', hq', hlen, hrun⟩ := ih q
    refine ⟨tok :: ts, q', by omega, by simp [hlen], ?_⟩
    rw [run_succ, hstep]
    simp only [hrun]

/-- At or past the end of the input every call returns `EOF` with empty text. -/
theorem run_past_end (LookupIdent : List Nat → TokenType) (input : List Nat) (d : Bool) :
    ∀ (n p : Nat), input.length ≤ p →
      run LookupIdent n (atPos input p d) =
        some (List.replicate n { Typ := TokenType.EOF, Literal := [] },
              atPos input (p + n) d) := by
  intro n
  induction n with
  | zero => intro p _; rfl
  | succ n ih =>
    intro p hp
    have h0 : input.getD p 0 = 0 := List.getD_eq_default _ _ hp
    have hstep := NextToken_zero LookupIdent input d p p (le_refl _)
      (fun i h1 h2 => by omega) h0
    rw [run_succ, hstep]
    simp only [ih (p + 1) (by omega), List.replicate_succ]
    congr 3
    omega

/-- On an input without zero bytes, with a lookup that never answers `EOF`, a
token of kind `EOF` has empty text and is returned only once the cursor is at
or past the end of the input; the cursor is then left past the end. -/
theorem NextToken_nul_free (LookupIdent : List Nat → TokenType)
    (hlk : ∀ s, LookupIdent s ≠ TokenType.EOF) (input : List Nat)
    (h0 : ∀ b ∈ input, b ≠ 0) (d : Bool) (p : Nat) :
    ∃ tok q, p < q ∧
      NextToken LookupIdent (atPos input p d) =
        some { tok := tok, lexer := atPos input q d, out := if d then [tok] else [] } ∧
      (tok.Typ = TokenType.EOF →
        tok = { Typ := TokenType.EOF, Literal := [] } ∧ input.length < q) := by
  obtain ⟨tok, p1, q, hp1, hq, -, -, -, hshape, hstep⟩ := NextToken_atPos LookupIdent input d p
  refine ⟨tok, q, by omega, hstep, ?_⟩
  intro hty
  rcases hshape with h | ⟨k, hk, h, -⟩ | h | h | h
  · refine ⟨h.2.1, ?_⟩
    by_contra hlt
    have hlt' : p1 < input.length := by omega
    have hmem : input.getD p1 0 ∈ input := by
      rw [List.getD_eq_getElem _ _ hlt']; exact List.getElem_mem hlt'
    exact h0 _ hmem h.1
  · rw [h] at hty; exact absurd hty (symbolTable_ne_EOF _ _ hk)
  · rw [h.2.2.2.2.2] at hty; exact absurd hty (hlk _)
  · rw [h.2.2.2.2.2] at hty; exact TokenType.noConfusion hty
  · rw [h.2.2.2.2.1] at hty; exact TokenType.noConfusion hty

theorem run_sticky (LookupIdent : List Nat → TokenType)
    (hlk : ∀ s, LookupIdent s ≠ TokenType.EOF) (input : List Nat)
    (h0 : ∀ b ∈ input, b ≠ 0) (d : Bool) :
    ∀ (n p : Nat), ∃ ts l, run LookupIdent n (atPos input p d) = some (ts, l) ∧
      ts.length = n ∧ EOFSticky ts := by
  intro n
  induction n with
  | zero =>
    intro p
    refine ⟨[], _, rfl, rfl, ?_⟩
    intro pre t post h
    exact absurd h (by simp)
  | succ n ih =>
    intro p
    obtain ⟨tok, q, hq, hstep, heof⟩ := NextToken_nul_free LookupIdent hlk input h0 d p
    obtain ⟨ts, l, hrun, hlen, hst⟩ := ih q
    refine ⟨tok :: ts, l, ?_, by simp [hlen], ?_⟩
    · rw [run_succ, hstep]; simp only [hrun]
    · intro pre t post hsplit hty
      cases pre with
      | nil =>
        simp only [List.nil_append, List.cons.injEq] at hsplit
        obtain ⟨h1, h2⟩ := hsplit
        subst h1
        obtain ⟨htok, hql⟩ := heof hty
        refine ⟨htok, ?_⟩
        have hpast := run_past_end LookupIdent input d n q (by omega)
        rw [hpast] at hrun
        simp only [Option.some.injEq, Prod.mk.injEq] at hrun
        intro u hu
        rw [← h2, ← hrun.1] at hu
        exact List.eq_of_mem_replicate hu
      | cons a pre' =>
        simp only [List.cons_append, List.cons.injEq] at hsplit
        exact hst pre' t post hsplit.2 hty

theorem getD_of_getElem_some (input : List Nat) (p b : Nat) (hb : input[p]? = some b) :
    input.getD p 0 = b := by
  simp [List.getD, hb]

/-- C3, as amended: for every byte `b` from 0x01 to 0x7F that is not whitespace,
not one of the symbols `= + ( ) { } , ;`, not a letter or underscore and not a
digit: when `b` is the current character (the byte at the cursor `p`),
`NextToken` returns a token of kind `ILLEGAL` whose `Literal` is exactly that
one byte, and the cursor advances by exactly one position, to `p + 1`; and
input `@` gives `ILLEGAL("@")` then `EOF("")`. -/
theorem C3_illegal_byte (LookupIdent : List Nat → TokenType) (input : List Nat) (d : Bool)
    (p b : Nat) (hb : input[p]? = some b) (hnz : b ≠ 0) (hascii : b < 128)
    (hnw : isWhitespace b = false) (hs : b ∉ [61, 43, 40, 41, 123, 125, 44, 59])
    (hl : isLetter b = false) (hd : isDigit b = false) :
    NextToken LookupIdent (atPos input p d) =
      some { tok := { Typ := TokenType.ILLEGAL, Literal := [b] },
             lexer := atPos input (p + 1) d,
             out := if d then [{ Typ := TokenType.ILLEGAL, Literal := [b] }] else [] } ∧
    tokens LookupIdent [64] 2 =
      some [{ Typ := TokenType.ILLEGAL, Literal := [64] },
            { Typ := TokenType.EOF, Literal := [] }] := by
  have hc := getD_of_getElem_some input p b hb
  have hs : ∀ k, (b, k) ∉ symbolTable := by
    intro k hk
    rw [mem_symbolTable] at hk
    simp only [List.mem_cons, List.mem_singleton, List.not_mem_nil, or_false, not_or] at hs
    omega
  have hstep := NextToken_other LookupIdent input d p p (le_refl _)
    (fun i h1 h2 => by omega) (by rw [hc]; exact hnw) (by rw [hc]; exact hs)
    (by rw [hc]; exact hnz) (by rw [hc]; exact hl) (by rw [hc]; exact hd)
  have hlit : newToken TokenType.ILLEGAL b = { Typ := TokenType.ILLEGAL, Literal := [b] } := by
    simp [newToken, byteToString, hascii]
  rw [hc, hlit] at hstep
  exact ⟨hstep, rfl⟩

/-- C3 at the byte `@` in the input `a@b`. -/
theorem C3_illegal_byte_witness :
    NextToken sampleLookup (atPos [97, 64, 98] 1 false) =
      some { tok := { Typ := TokenType.ILLEGAL, Literal := [64] },
             lexer := atPos [97, 64, 98] 2 false,
             out := [] } :=
  (C3_illegal_byte sampleLookup [97, 64, 98] false 1 64 (by decide) (by decide) (by decide)
    (by decide) (by decide) (by decide) (by decide)).1

/-- C3 as stated fails at two bytes that are neither whitespace, symbol, letter
nor digit: the zero byte as current character gives `EOF` with empty text, and
the byte 0xE9 gives an `ILLEGAL` token whose text is the two bytes 0xC3 0xA9,
not the one byte of the input. -/
theorem C3_illegal_byte_counterexample :
    (∀ b ∈ [0, 233], isWhitespace b = false ∧ b ∉ [61, 43, 40, 41, 123, 125, 44, 59] ∧
      isLetter b = false ∧ isDigit b = false) ∧
    tokens sampleLookup [0] 1 = some [{ Typ := TokenType.EOF, Literal := [] }] ∧
    tokens sampleLookup [233] 1 = some [{ Typ := TokenType.ILLEGAL, Literal := [195, 169] }] := by
  decide

/-- C4: with the cursor at `p`, whitespace from `p` up to `p1`, and a letter or
underscore at `p1`: for `q` the smallest index from `p1` on whose byte is not a
letter or underscore (the byte past the end counting as the sentinel 0, so `q`
is the input length if there is none), `NextToken` returns the token whose
`Literal` is `input[p1:q]` and whose kind is the keyword lookup of that
`Literal`, and leaves the cursor at `q` with current character `input[q]` (or
the sentinel): the failing character is not consumed. -/
theorem C4_identifier_maximal_munch (LookupIdent : List Nat → TokenType) (input : List Nat)
    (d : Bool) (p p1 q : Nat) (hp : p ≤ p1)
    (hws : ∀ i, i < p1 → p ≤ i → isWhitespace (input.getD i 0) = true)
    (hl : isLetter (input.getD p1 0) = true) (hp1q : p1 ≤ q)
    (hrun : ∀ i, i < q → p1 ≤ i → isLetter (input.getD i 0) = true)
    (hstop : isLetter (input.getD q 0) = false) :
    q ≤ input.length ∧
    slice input p1 q = some ((input.drop p1).take (q - p1)) ∧
    NextToken LookupIdent (atPos input p d) =
      some { tok := { Typ := LookupIdent ((input.drop p1).take (q - p1)),
                      Literal := (input.drop p1).take (q - p1) },
             lexer := { input := input, position := q, readPosition := q + 1,
                        ch := input.getD q 0, Debug := d },
             out := if d then [{ Typ := LookupIdent ((input.drop p1).take (q - p1)),
                                 Literal := (input.drop p1).take (q - p1) }] else [] } := by
  have hlt := getD_cond_lt isLetter isLetter_zero input p1 hl
  have hq := run_le_length isLetter isLetter_zero input p1 q (by omega) hrun
  exact ⟨hq, slice_eq input p1 q hp1q hq,
    NextToken_letter LookupIdent input d p p1 hp hws q hp1q hl hrun hstop⟩

/-- C4 at the input ` ab1`: the call returns `IDENT("ab")` and stops at the
digit. -/
theorem C4_identifier_maximal_munch_witness :
    NextToken sampleLookup (atPos [32, 97, 98, 49] 0 false) =
      some { tok := { Typ := TokenType.IDENT, Literal := [97, 98] },
             lexer := { input := [32, 97, 98, 49], position := 3, readPosition := 4,
                        ch := 49, Debug := false },
             out := [] } :=
  (C4_identifier_maximal_munch sampleLookup [32, 97, 98, 49] false 0 1 3 (by decide)
    (by decide) (by decide) (by decide) (by decide) (by decide)).2.2

/-- C5: with the cursor at `p`, whitespace from `p` up to `p1`, and a digit at
`p1`: for `q` the smallest index from `p1` on whose byte is not a digit (the
byte past the end counting as the sentinel 0, so `q` is the input length if
there is none), `NextToken` returns the token of kind `INT` whose `Literal` is
`input[p1:q]`, and leaves the cursor at `q` with current character `input[q]`
(or the sentinel), with no further advance. -/
theorem C5_number_maximal_munch (LookupIdent : List Nat → TokenType) (input : List Nat)
    (d : Bool) (p p1 q : Nat) (hp : p ≤ p1)
    (hws : ∀ i, i < p1 → p ≤ i → isWhitespace (input.getD i 0) = true)
    (hl : isDigit (input.getD p1 0) = true) (hp1q : p1 ≤ q)
    (hrun : ∀ i, i < q → p1 ≤ i → isDigit (input.getD i 0) = true)
    (hstop : isDigit (input.getD q 0) = false) :
    q ≤ input.length ∧
    slice input p1 q = some ((input.drop p1).take (q - p1)) ∧
    NextToken LookupIdent (atPos input p d) =
      some { tok := { Typ := TokenType.INT, Literal := (input.drop p1).take (q - p1) },
             lexer := { input := input, position := q, readPosition := q + 1,
                        ch := input.getD q 0, Debug := d },
             out := if d then [{ Typ := TokenType.INT,
                                 Literal := (input.drop p1).take (q - p1) }] else [] } := by
  have hlt := getD_cond_lt isDigit isDigit_zero input p1 hl
  have hq := run_le_length isDigit isDigit_zero input p1 q (by omega) hrun
  exact ⟨hq, slice_eq input p1 q hp1q hq,
    NextToken_digit LookupIdent input d p p1 hp hws q hp1q hl hrun hstop⟩

/-- C5 at the input `12ab`, with the cursor on the first digit: the call
returns `INT("12")` and stops at the letter. -/
theorem C5_number_maximal_munch_witness :
    NextToken sampleLookup (atPos [49, 50, 97, 98] 0 false) =
      some { tok := { Typ := TokenType.INT, Literal := [49, 50] },
             lexer := { input := [49, 50, 97, 98], position := 2, readPosition := 3,
                        ch := 97, Debug := false },
             out := [] } :=
  (C5_number_maximal_munch sampleLookup [49, 50, 97, 98] false 0 0 2 (by decide)
    (by decide) (by decide) (by decide) (by decide) (by decide)).2.2

/-- C6: for each of the eight symbol bytes `=` `+` `(` `)` `{` `}` `,` `;` with
its kind `ASSIGN`, `PLUS`, `LPAREN`, `RPAREN`, `LBRACE`, `RBRACE`, `COMMA`,
`SEMICOLON` (the pairs of `symbolTable`): with the cursor at `p`, whitespace
from `p` up to `p1` and that byte at `p1`, `NextToken` returns the token of
that kind whose `Literal` is exactly that one byte, and the cursor advances by
exactly one position past it, to `p1 + 1`. -/
theorem C6_symbol_tokens (LookupIdent : List Nat → TokenType) (input : List Nat) (d : Bool)
    (p p1 b : Nat) (k : TokenType) (hp : p ≤ p1)
    (hws : ∀ i, i < p1 → p ≤ i → isWhitespace (input.getD i 0) = true)
    (hb : input[p1]? = some b)
    (hk : (b, k) ∈ [(61, TokenType.ASSIGN), (43, TokenType.PLUS), (40, TokenType.LPAREN),
      (41, TokenType.RPAREN), (123, TokenType.LBRACE), (125, TokenType.RBRACE),
      (44, TokenType.COMMA), (59, TokenType.SEMICOLON)]) :
    NextToken LookupIdent (atPos input p d) =
      some { tok := { Typ := k, Literal := [b] },
             lexer := { input := input, position := p1 + 1, readPosition := p1 + 2,
                        ch := input.getD (p1 + 1) 0, Debug := d },
             out := if d then [{ Typ := k, Literal := [b] }] else [] } := by
  have hc := getD_of_getElem_some input p1 b hb
  have hk' : (input.getD p1 0, k) ∈ symbolTable := by rw [hc]; exact hk
  have hstep := NextToken_symbol LookupIdent input d p p1 hp hws k hk'
  rw [hc] at hstep
  exact hstep

/-- C6 at the input ` \t;x`: whitespace is skipped and `SEMICOLON(";")` is
returned with the cursor left on `x`. -/
theorem C6_symbol_tokens_witness :
    NextToken sampleLookup (atPos [32, 9, 59, 120] 0 false) =
      some { tok := { Typ := TokenType.SEMICOLON, Literal := [59] },
             lexer := { input := [32, 9, 59, 120], position := 3, readPosition := 4,
                        ch := 120, Debug := false },
             out := [] } :=
  C6_symbol_tokens sampleLookup [32, 9, 59, 120] false 0 2 59 TokenType.SEMICOLON
    (by decide) (by decide) (by decide) (by decide)

theorem readChar_SetDebug (l : Lexer) (d : Bool) :
    readChar (SetDebug l d) = (readChar l).map (fun l' => SetDebug l' d) := by
  rw [readChar_eq, readChar_eq]; rfl

theorem loopWhile_SetDebug (cond : Nat → Bool) (d : Bool) :
    ∀ (fuel : Nat) (l : Lexer),
      loopWhile cond fuel (SetDebug l d) =
        (loopWhile cond fuel l).map (fun l' => SetDebug l' d) := by
  intro fuel
  induction fuel with
  | zero => intro l; rfl
  | succ f ih =>
    intro l
    rw [loopWhile_succ, loopWhile_succ, readChar_SetDebug]
    have hch : (SetDebug l d).ch = l.ch := rfl
    rw [hch]
    by_cases hc : cond l.ch = true
    · rw [if_pos hc, if_pos hc, readChar_eq]
      exact ih _
    · rw [if_neg hc, if_neg hc]; rfl

theorem finish_SetDebug (l : Lexer) (d : Bool) (tok : Token) :
    finish (SetDebug l d) tok = (finish l tok).map (withDebug d) := by
  unfold finish
  rw [readChar_SetDebug, readChar_eq]
  rfl

theorem readIdentifier_SetDebug (l : Lexer) (d : Bool) :
    readIdentifier (SetDebug l d) =
      (readIdentifier l).map (fun r => (r.1, SetDebug r.2 d)) := by
  unfold readIdentifier
  have hb : budget (SetDebug l d) = budget l := rfl
  simp only [hb, loopWhile_SetDebug]
  cases loopWhile isLetter (budget l) l with
  | none => rfl
  | some l' =>
    simp only [Option.map_some']
    have h1 : (SetDebug l' d).input = l'.input := rfl
    have h2 : (SetDebug l' d).position = l'.position := rfl
    have h3 : (SetDebug l d).position = l.position := rfl
    rw [h1, h2, h3]
    cases slice l'.input l.position l'.position <;> rfl

theorem readNumber_SetDebug (l : Lexer) (d : Bool) :
    readNumber (SetDebug l d) =
      (readNumber l).map (fun r => (r.1, SetDebug r.2 d)) := by
  unfold readNumber
  have hb : budget (SetDebug l d) = budget l := rfl
  simp only [hb, loopWhile_SetDebug]
  cases loopWhile isDigit (budget l) l with
  | none => rfl
  | some l' =>
    simp only [Option.map_some']
    have h1 : (SetDebug l' d).input = l'.input := rfl
    have h2 : (SetDebug l' d).position = l'.position := rfl
    have h3 : (SetDebug l d).position = l.position := rfl
    rw [h1, h2, h3]
    cases slice l'.input l.position l'.position <;> rfl

/-- Setting the flag before a call changes nothing of the call but the flag
carried in the lexer and the lines written. -/
theorem NextToken_SetDebug (LookupIdent : List Nat → TokenType) (l : Lexer) (d : Bool) :
    NextToken LookupIdent (SetDebug l d) =
      (NextToken LookupIdent l).map (withDebug d) := by
  unfold NextToken skipWhitespace
  have hb : budget (SetDebug l d) = budget l := rfl
  rw [hb, loopWhile_SetDebug]
  cases loopWhile isWhitespace (budget l) l with
  | none => rfl
  | some l1 =>
    simp only [Option.map_some']
    have hch : (SetDebug l1 d).ch = l1.ch := rfl
    simp only [hch, finish_SetDebug, readIdentifier_SetDebug, readNumber_SetDebug]
    by_cases h0 : l1.ch = 61
    · rw [if_pos h0, if_pos h0]
    rw [if_neg h0, if_neg h0]
    by_cases h1 : l1.ch = 43
    · rw [if_pos h1, if_pos h1]
    rw [if_neg h1, if_neg h1]
    by_cases h2 : l1.ch = 40
    · rw [if_pos h2, if_pos h2]
    rw [if_neg h2, if_neg h2]
    by_cases h3 : l1.ch = 41
    · rw [if_pos h3, if_pos h3]
    rw [if_neg h3, if_neg h3]
    by_cases h4 : l1.ch = 123
    · rw [if_pos h4, if_pos h4]
    rw [if_neg h4, if_neg h4]
    by_cases h5 : l1.ch = 125
    · rw [if_pos h5, if_pos h5]
    rw [if_neg h5, if_neg h5]
    by_cases h6 : l1.ch = 44
    · rw [if_pos h6, if_pos h6]
    rw [if_neg h6, if_neg h6]
    by_cases h7 : l1.ch = 59
    · rw [if_pos h7, if_pos h7]
    rw [if_neg h7, if_neg h7]
    by_cases h8 : l1.ch = 0
    · rw [if_pos h8, if_pos h8]
    rw [if_neg h8, if_neg h8]
    by_cases hl : isLetter l1.ch = true
    · rw [if_pos hl, if_pos hl]
      cases readIdentifier l1 <;> rfl
    rw [if_neg hl, if_neg hl]
    by_cases hd : isDigit l1.ch = true
    · rw [if_pos hd, if_pos hd]
      cases readNumber l1 <;> rfl
    rw [if_neg hd, if_neg hd]

/-- C9: the diagnostic flag is purely observational.  From any lexer state,
`NextToken` run with `Debug = true` and run with `Debug = false` agree on
whether a token is returned, on the token, and on `input`, `position`,
`readPosition` and `ch` afterwards; `SetDebug` changes no field other than
`Debug`; and from every state of the reachable shape both runs do return, the
only difference being the one line written under `Debug = true`. -/
theorem C9_debug_observational (LookupIdent : List Nat → TokenType) (l : Lexer) :
    ((NextToken LookupIdent (SetDebug l true)).map
        (fun s => (s.tok, s.lexer.input, s.lexer.position, s.lexer.readPosition, s.lexer.ch)) =
      (NextToken LookupIdent (SetDebug l false)).map
        (fun s => (s.tok, s.lexer.input, s.lexer.position, s.lexer.readPosition, s.lexer.ch))) ∧
    (∀ d, (SetDebug l d).input = l.input ∧ (SetDebug l d).position = l.position ∧
      (SetDebug l d).readPosition = l.readPosition ∧ (SetDebug l d).ch = l.ch ∧
      (SetDebug l d).Debug = d) ∧
    (∀ input p d0, ∃ tok q,
      NextToken LookupIdent (SetDebug (atPos input p d0) true) =
        some { tok := tok, lexer := atPos input q true, out := [tok] } ∧
      NextToken LookupIdent (SetDebug (atPos input p d0) false) =
        some { tok := tok, lexer := atPos input q false, out := [] }) := by
  refine ⟨?_, fun d => ⟨rfl, rfl, rfl, rfl, rfl⟩, ?_⟩
  · rw [NextToken_SetDebug, NextToken_SetDebug]
    cases NextToken LookupIdent l <;> rfl
  · intro input p d0
    obtain ⟨tok, p1, q, -, -, -, -, -, -, hstep⟩ := NextToken_atPos LookupIdent input d0 p
    refine ⟨tok, q, ?_, ?_⟩
    · rw [NextToken_SetDebug, hstep]; rfl
    · rw [NextToken_SetDebug, hstep]; rfl

/-- C10: given a keyword lookup that maps `let` to `LET` and `x` and `y` to
`IDENT`, the first eight `NextToken` calls on `New("let x = 5 + y;")` return,
in order, `LET("let")`, `IDENT("x")`, `ASSIGN("=")`, `INT("5")`, `PLUS("+")`,
`IDENT("y")`, `SEMICOLON(";")`, `EOF("")`. -/
theorem C10_scenario_let (LookupIdent : List Nat → TokenType)
    (hlet : LookupIdent [108, 101, 116] = TokenType.LET)
    (hx : LookupIdent [120] = TokenType.IDENT)
    (hy : LookupIdent [121] = TokenType.IDENT) :
    tokens LookupIdent [108, 101, 116, 32, 120, 32, 61, 32, 53, 32, 43, 32, 121, 59] 8 =
      some [{ Typ := TokenType.LET, Literal := [108, 101, 116] },
            { Typ := TokenType.IDENT, Literal := [120] },
            { Typ := TokenType.ASSIGN, Literal := [61] },
            { Typ := TokenType.INT, Literal := [53] },
            { Typ := TokenType.PLUS, Literal := [43] },
            { Typ := TokenType.IDENT, Literal := [121] },
            { Typ := TokenType.SEMICOLON, Literal := [59] },
            { Typ := TokenType.EOF, Literal := [] }] := by
  have h : tokens LookupIdent [108, 101, 116, 32, 120, 32, 61, 32, 53, 32, 43, 32, 121, 59] 8 =
      some [{ Typ := LookupIdent [108, 101, 116], Literal := [108, 101, 116] },
            { Typ := LookupIdent [120], Literal := [120] },
            { Typ := TokenType.ASSIGN, Literal := [61] },
            { Typ := TokenType.INT, Literal := [53] },
            { Typ := TokenType.PLUS, Literal := [43] },
            { Typ := LookupIdent [121], Literal := [121] },
            { Typ := TokenType.SEMICOLON, Literal := [59] },
            { Typ := TokenType.EOF, Literal := [] }] := rfl
  rw [h, hlet, hx, hy]

/-- C10 with the sample keyword lookup, whose reserved words are `let` and
`fn`. -/
theorem C10_scenario_let_witness :
    tokens sampleLookup [108, 101, 116, 32, 120, 32, 61, 32, 53, 32, 43, 32, 121, 59] 8 =
      some [{ Typ := TokenType.LET, Literal := [108, 101, 116] },
            { Typ := TokenType.IDENT, Literal := [120] },
            { Typ := TokenType.ASSIGN, Literal := [61] },
            { Typ := TokenType.INT, Literal := [53] },
            { Typ := TokenType.PLUS, Literal := [43] },
            { Typ := TokenType.IDENT, Literal := [121] },
            { Typ := TokenType.SEMICOLON, Literal := [59] },
            { Typ := TokenType.EOF, Literal := [] }] :=
  C10_scenario_let sampleLookup (by decide) (by decide) (by decide)

/-- C11: given a keyword lookup that maps `fn`, `a` and `b` to `IDENT`, the
first nine `NextToken` calls on `New("fn(a,b){}")` return, in order,
`IDENT("fn")`, `LPAREN("(")`, `IDENT("a")`, `COMMA(",")`, `IDENT("b")`,
`RPAREN(")")`, `LBRACE("{")`, `RBRACE("}")`, `EOF("")`. -/
theorem C11_scenario_fn (LookupIdent : List Nat → TokenType)
    (hfn : LookupIdent [102, 110] = TokenType.IDENT)
    (ha : LookupIdent [97] = TokenType.IDENT)
    (hb : LookupIdent [98] = TokenType.IDENT) :
    tokens LookupIdent [102, 110, 40, 97, 44, 98, 41, 123, 125] 9 =
      some [{ Typ := TokenType.IDENT, Literal := [102, 110] },
            { Typ := TokenType.LPAREN, Literal := [40] },
            { Typ := TokenType.IDENT, Literal := [97] },
            { Typ := TokenType.COMMA, Literal := [44] },
            { Typ := TokenType.IDENT, Literal := [98] },
            { Typ := TokenType.RPAREN, Literal := [41] },
            { Typ := TokenType.LBRACE, Literal := [123] },
            { Typ := TokenType.RBRACE, Literal := [125] },
            { Typ := TokenType.EOF, Literal := [] }] := by
  have h : tokens LookupIdent [102, 110, 40, 97, 44, 98, 41, 123, 125] 9 =
      some [{ Typ := LookupIdent [102, 110], Literal := [102, 110] },
            { Typ := TokenType.LPAREN, Literal := [40] },
            { Typ := LookupIdent [97], Literal := [97] },
            { Typ := TokenType.COMMA, Literal := [44] },
            { Typ := LookupIdent [98], Literal := [98] },
            { Typ := TokenType.RPAREN, Literal := [41] },
            { Typ := TokenType.LBRACE, Literal := [123] },
            { Typ := TokenType.RBRACE, Literal := [125] },
            { Typ := TokenType.EOF, Literal := [] }] := rfl
  rw [h, hfn, ha, hb]

/-- C11 with a keyword lookup whose only reserved word is `let`. -/
theorem C11_scenario_fn_witness :
    tokens letLookup [102, 110, 40, 97, 44, 98, 41, 123, 125] 9 =
      some [{ Typ := TokenType.IDENT, Literal := [102, 110] },
            { Typ := TokenType.LPAREN, Literal := [40] },
            { Typ := TokenType.IDENT, Literal := [97] },
            { Typ := TokenType.COMMA, Literal := [44] },
            { Typ := TokenType.IDENT, Literal := [98] },
            { Typ := TokenType.RPAREN, Literal := [41] },
            { Typ := TokenType.LBRACE, Literal := [123] },
            { Typ := TokenType.RBRACE, Literal := [125] },
            { Typ := TokenType.EOF, Literal := [] }] :=
  C11_scenario_fn letLookup (by decide) (by decide) (by decide)
/-- C14 as stated fails: on the empty input, `New` leaves `position = 0`,
`readPosition = 1` and `ch = 0`; the `NextToken` call returns `EOF` and leaves
`position = 1` and `readPosition = 2`. -/
theorem C14_eof_advances_counterexample :
    New [] = some { input := [], position := 0, readPosition := 1, ch := 0, Debug := false } ∧
    NextToken sampleLookup
        { input := [], position := 0, readPosition := 1, ch := 0, Debug := false } =
      some { tok := { Typ := TokenType.EOF, Literal := [] },
             lexer := { input := [], position := 1, readPosition := 2, ch := 0,
                        Debug := false },
             out := [] } := by
  decide

theorem getD_ne_zero_lt (input : List Nat) (p : Nat) (h : input.getD p 0 ≠ 0) :
    p < input.length := by
  by_contra hge
  exact h (List.getD_eq_default _ _ (by omega))

theorem symbolTable_ne_zero (c : Nat) (k : TokenType) (h : (c, k) ∈ symbolTable) :
    c ≠ 0 ∧ isLetter c = false ∧ isDigit c = false ∧ isWhitespace c = false ∧ c < 128 := by
  rw [mem_symbolTable] at h
  rcases h with h | h | h | h | h | h | h | h <;> (rw [h.1]; decide)

theorem isLetter_not_isDigit (c : Nat) (h : isLetter c = true) : isDigit c = false := by
  simp only [isLetter, isDigit, Bool.or_eq_true, Bool.and_eq_true, decide_eq_true_eq,
    Bool.and_eq_false_iff, decide_eq_false_iff_not] at h ⊢
  omega

theorem isLetter_not_isWhitespace (c : Nat) (h : isLetter c = true) :
    isWhitespace c = false := by
  simp only [isLetter, isWhitespace, Bool.or_eq_true, Bool.and_eq_true, decide_eq_true_eq,
    Bool.or_eq_false_iff, decide_eq_false_iff_not] at h ⊢
  omega

theorem isDigit_not_isWhitespace (c : Nat) (h : isDigit c = true) :
    isWhitespace c = false := by
  simp only [isDigit, isWhitespace, Bool.or_eq_true, Bool.and_eq_true, decide_eq_true_eq,
    Bool.or_eq_false_iff, decide_eq_false_iff_not] at h ⊢
  omega

/-- A token that is not of kind `EOF` leaves the cursor within the input. -/
theorem StepShape_le_length (LookupIdent : List Nat → TokenType) (input : List Nat)
    (p1 q : Nat) (tok : Token) (h : StepShape LookupIdent input p1 q tok)
    (hne : tok.Typ ≠ TokenType.EOF) : q ≤ input.length := by
  rcases h with h | ⟨k, hk, -, hq⟩ | h | h | h
  · rw [h.2.1] at hne; exact absurd rfl hne
  · have := getD_ne_zero_lt input p1 (symbolTable_ne_zero _ _ hk).1
    omega
  · exact h.2.2.1
  · exact h.2.2.1
  · have := getD_ne_zero_lt input p1 h.1
    omega

/-- When the first byte that is not whitespace is a letter or underscore, the
call is the identifier case. -/
theorem StepShape_letter (LookupIdent : List Nat → TokenType) (input : List Nat)
    (p1 q : Nat) (tok : Token) (h : StepShape LookupIdent input p1 q tok)
    (hl : isLetter (input.getD p1 0) = true) :
    p1 < q ∧ q ≤ input.length ∧
      (∀ i, i < q → p1 ≤ i → isLetter (input.getD i 0) = true) ∧
      isLetter (input.getD q 0) = false ∧
      tok = { Typ := LookupIdent ((input.drop p1).take (q - p1)),
              Literal := (input.drop p1).take (q - p1) } := by
  rcases h with h | ⟨k, hk, -, -⟩ | h | h | h
  · rw [h.1] at hl; exact absurd hl (by decide)
  · rw [(symbolTable_ne_zero _ _ hk).2.1] at hl; exact Bool.noConfusion hl
  · exact h.2
  · rw [isLetter_not_isDigit _ hl] at h; exact Bool.noConfusion h.1
  · rw [h.2.2.1] at hl; exact Bool.noConfusion hl

/-- The first position from `p` on whose byte is not whitespace is unique. -/
theorem first_nonwhitespace_unique (input : List Nat) (p p1 p2 : Nat)
    (h1 : ∀ i, i < p1 → p ≤ i → isWhitespace (input.getD i 0) = true)
    (h1' : isWhitespace (input.getD p1 0) = false) (hp1 : p ≤ p1)
    (h2 : ∀ i, i < p2 → p ≤ i → isWhitespace (input.getD i 0) = true)
    (h2' : isWhitespace (input.getD p2 0) = false) (hp2 : p ≤ p2) : p1 = p2 := by
  rcases Nat.lt_trichotomy p1 p2 with h | h | h
  · rw [h2 p1 h hp1] at h1'; exact Bool.noConfusion h1'
  · exact h
  · rw [h1 p2 h hp2] at h2'; exact Bool.noConfusion h2'

/-- Every byte of the slice `input[p:q]` is a byte of the input at an index
from `p` up to `q`. -/
theorem mem_slice (input : List Nat) (p q b : Nat) (hq : q ≤ input.length)
    (hb : b ∈ (input.drop p).take (q - p)) :
    ∃ i, p ≤ i ∧ i < q ∧ b = input.getD i 0 := by
  obtain ⟨n, hn, hbn⟩ := List.mem_iff_getElem.1 hb
  have hlen : n < q - p := by
    have := hn
    rw [List.length_take] at this
    omega
  refine ⟨p + n, by omega, by omega, ?_⟩
  rw [← hbn, List.getElem_take, List.getElem_drop, List.getD_eq_getElem _ _ (by omega)]

theorem slice_ne_nil (input : List Nat) (p q : Nat) (hpq : p < q) (hq : q ≤ input.length) :
    (input.drop p).take (q - p) ≠ [] := by
  intro h
  have := congrArg List.length h
  rw [List.length_take, List.length_drop] at this
  simp only [List.length_nil] at this
  omega

/-- The text `string(ch)` of a byte that is not whitespace holds no whitespace
byte. -/
theorem byteToString_no_whitespace (c : Nat) (hnw : isWhitespace c = false) :
    ∀ b ∈ byteToString c, isWhitespace b = false := by
  intro b hb
  unfold byteToString at hb
  by_cases h : c < 128
  · rw [if_pos h] at hb
    rw [List.mem_singleton.1 hb]; exact hnw
  · rw [if_neg h] at hb
    simp only [List.mem_cons, List.mem_singleton, List.not_mem_nil, or_false] at hb
    simp only [isWhitespace, Bool.or_eq_false_iff, decide_eq_false_iff_not]
    omega

/-- From any position within the input, the calls reach a token of kind `EOF`
within the remaining length plus one calls; each token before it consumes at
least one byte. -/
theorem lexAll_total (LookupIdent : List Nat → TokenType) (input : List Nat) (d : Bool) :
    ∀ (fuel p : Nat), p ≤ input.length → input.length < fuel + p →
      ∃ pre e, lexAll LookupIdent fuel (atPos input p d) = some (pre ++ [e]) ∧
        e.Typ = TokenType.EOF ∧ (∀ t ∈ pre, t.Typ ≠ TokenType.EOF) ∧
        pre.length + p ≤ input.length := by
  intro fuel
  induction fuel with
  | zero => intro p hp hf; omega
  | succ f ih =>
    intro p hp hf
    obtain ⟨tok, p1, q, hp1, hq, -, -, -, hshape, hstep⟩ :=
      NextToken_atPos LookupIdent input d p
    by_cases hty : tok.Typ = TokenType.EOF
    · refine ⟨[], tok, ?_, hty, fun t ht => absurd ht (List.not_mem_nil t), by simpa using hp⟩
      rw [lexAll_succ, hstep]
      simp only [if_pos hty, List.nil_append]
    · have hql := StepShape_le_length LookupIdent input p1 q tok hshape hty
      obtain ⟨pre, e, hrun, he, hpre, hlen⟩ := ih q hql (by omega)
      refine ⟨tok :: pre, e, ?_, he, ?_, ?_⟩
      · rw [lexAll_succ, hstep]
        simp only [if_neg hty, hrun, Option.map_some', List.cons_append]
      · intro t ht
        rcases List.mem_cons.1 ht with h | h
        · rw [h]; exact hty
        · exact hpre t h
      · simp only [List.length_cons]; omega

/-- C20: kind and text agree.  With a keyword lookup that answers neither
`EOF` nor `INT`, for every input and every state of the reachable shape the
token `NextToken` returns satisfies: if its kind is `INT`, its `Literal` is
non-empty and made only of digits; if the call took the identifier branch (the
first byte that is not whitespace, at `p1`, is a letter or underscore), its
`Literal` is non-empty and made only of letters and underscores; if its kind is
`EOF`, its `Literal` is empty; and its `Literal` contains no space, tab,
newline or carriage-return byte. -/
theorem C20_kind_text_consistent (LookupIdent : List Nat → TokenType)
    (hlk : ∀ s, LookupIdent s ≠ TokenType.EOF ∧ LookupIdent s ≠ TokenType.INT)
    (input : List Nat) (d : Bool) (p : Nat) :
    ∃ s, NextToken LookupIdent (atPos input p d) = some s ∧
      (s.tok.Typ = TokenType.INT →
        s.tok.Literal ≠ [] ∧ ∀ b ∈ s.tok.Literal, isDigit b = true) ∧
      (∀ p1, p ≤ p1 → (∀ i, i < p1 → p ≤ i → isWhitespace (input.getD i 0) = true) →
        isLetter (input.getD p1 0) = true →
        s.tok.Literal ≠ [] ∧ ∀ b ∈ s.tok.Literal, isLetter b = true) ∧
      (s.tok.Typ = TokenType.EOF → s.tok.Literal = []) ∧
      (∀ b ∈ s.tok.Literal, isWhitespace b = false) := by
  obtain ⟨tok, p1, q, hp1, hq, -, hws, hnw, hshape, hstep⟩ :=
    NextToken_atPos LookupIdent input d p
  refine ⟨_, hstep, ?_, ?_, ?_, ?_⟩
  · show tok.Typ = TokenType.INT → _
    intro hty
    rcases hshape with h | ⟨k, hk, h, -⟩ | h | h | h
    · rw [h.2.1] at hty; exact TokenType.noConfusion hty
    · rw [h] at hty
      rw [mem_symbolTable] at hk
      simp only at hty
      rcases hk with g | g | g | g | g | g | g | g <;>
        (rw [g.2] at hty; exact TokenType.noConfusion hty)
    · rw [h.2.2.2.2.2] at hty; exact absurd hty (hlk _).2
    · obtain ⟨-, hpq, hql, hrun, -, htok⟩ := h
      rw [htok]
      refine ⟨slice_ne_nil input p1 q hpq hql, ?_⟩
      intro b hb
      obtain ⟨i, hi1, hi2, hbi⟩ := mem_slice input p1 q b hql hb
      rw [hbi]; exact hrun i hi2 hi1
    · rw [h.2.2.2.2.1] at hty; exact TokenType.noConfusion hty
  · show ∀ p1, _ → _ → _ → tok.Literal ≠ [] ∧ _
    intro p2 hp2 hws2 hl2
    have heq : p2 = p1 := first_nonwhitespace_unique input p p2 p1 hws2
      (isLetter_not_isWhitespace _ hl2) hp2 hws hnw hp1
    rw [heq] at hl2
    obtain ⟨hpq, hql, hrun, -, htok⟩ := StepShape_letter LookupIdent input p1 q tok hshape hl2
    rw [htok]
    refine ⟨slice_ne_nil input p1 q hpq hql, ?_⟩
    intro b hb
    obtain ⟨i, hi1, hi2, hbi⟩ := mem_slice input p1 q b hql hb
    rw [hbi]; exact hrun i hi2 hi1
  · show tok.Typ = TokenType.EOF → tok.Literal = []
    intro hty
    rcases hshape with h | ⟨k, hk, h, -⟩ | h | h | h
    · rw [h.2.1]
    · rw [h] at hty; exact absurd hty (symbolTable_ne_EOF _ _ hk)
    · rw [h.2.2.2.2.2] at hty; exact absurd hty (hlk _).1
    · rw [h.2.2.2.2.2] at hty; exact TokenType.noConfusion hty
    · rw [h.2.2.2.2.1] at hty; exact TokenType.noConfusion hty
  · show ∀ b ∈ tok.Literal, isWhitespace b = false
    intro b hb
    rcases hshape with h | ⟨k, hk, h, -⟩ | h | h | h
    · rw [h.2.1] at hb; exact absurd hb (List.not_mem_nil b)
    · rw [h] at hb
      rw [List.mem_singleton.1 hb]
      exact (symbolTable_ne_zero _ _ hk).2.2.2.1
    · obtain ⟨-, -, hql, hrun, -, htok⟩ := h
      rw [htok] at hb
      obtain ⟨i, hi1, hi2, hbi⟩ := mem_slice input p1 q b hql hb
      rw [hbi]; exact isLetter_not_isWhitespace _ (hrun i hi2 hi1)
    · obtain ⟨-, -, hql, hrun, -, htok⟩ := h
      rw [htok] at hb
      obtain ⟨i, hi1, hi2, hbi⟩ := mem_slice input p1 q b hql hb
      rw [hbi]; exact isDigit_not_isWhitespace _ (hrun i hi2 hi1)
    · rw [h.2.2.2.2.1] at hb
      exact byteToString_no_whitespace _ hnw b hb

theorem sampleLookup_ne_INT (s : List Nat) : sampleLookup s ≠ TokenType.INT := by
  unfold sampleLookup
  split
  · decide
  · split <;> decide

/-- C20 at the input ` 42;` from position 0. -/
theorem C20_kind_text_consistent_witness :
    ∃ s, NextToken sampleLookup (atPos [32, 52, 50, 59] 0 false) = some s ∧
      (s.tok.Typ = TokenType.INT →
        s.tok.Literal ≠ [] ∧ ∀ b ∈ s.tok.Literal, isDigit b = true) ∧
      (∀ p1, 0 ≤ p1 →
        (∀ i, i < p1 → 0 ≤ i → isWhitespace ([32, 52, 50, 59].getD i 0) = true) →
        isLetter ([32, 52, 50, 59].getD p1 0) = true →
        s.tok.Literal ≠ [] ∧ ∀ b ∈ s.tok.Literal, isLetter b = true) ∧
      (s.tok.Typ = TokenType.EOF → s.tok.Literal = []) ∧
      (∀ b ∈ s.tok.Literal, isWhitespace b = false) :=
  C20_kind_text_consistent sampleLookup
    (fun s => ⟨sampleLookup_ne_EOF s, sampleLookup_ne_INT s⟩) [32, 52, 50, 59] false 0

namespace Machine

theorem wrap_of_le (maxInt n : Nat) (h : n ≤ maxInt) : wrap maxInt n = (n : Int) := by
  unfold wrap; rw [if_pos h]

theorem wrap_nonneg_of_le (maxInt n : Nat) (h : n ≤ maxInt) : 0 ≤ wrap maxInt n := by
  rw [wrap_of_le maxInt n h]; exact Int.ofNat_nonneg n

theorem wrap_succ_max (maxInt : Nat) : wrap maxInt (maxInt + 1) = -((maxInt : Int) + 1) := by
  unfold wrap
  rw [if_neg (by omega)]
  push_cast
  omega

/-- Incrementing a counter that has not passed `MaxInt`, in Go. -/
theorem incr_wrap (maxInt n : Nat) (h : n ≤ maxInt) :
    incr maxInt (wrap maxInt n) = wrap maxInt (n + 1) := by
  rw [wrap_of_le maxInt n h]
  unfold incr
  by_cases hn : n = maxInt
  · rw [if_pos (by rw [hn]), hn, wrap_succ_max]
  · rw [if_neg (by intro h'; exact hn (Int.ofNat.inj h')), wrap_of_le maxInt (n + 1) (by omega)]
    push_cast; rfl

theorem index_cast (s : List Nat) (n : Nat) : index s (n : Int) = s[n]? := by
  unfold index
  rw [if_pos (Int.ofNat_nonneg n), Int.toNat_ofNat]

theorem index_neg (s : List Nat) (i : Int) (h : i < 0) : index s i = none := by
  unfold index
  rw [if_neg (by omega)]

/-- One `readChar` step with `readPosition` not past `MaxInt`. -/
theorem readChar_lift (maxInt : Nat) (l : Wrim.Lexer) (h : l.readPosition ≤ maxInt) :
    readChar maxInt (lift maxInt l) = (Wrim.readChar l).map (lift maxInt) := by
  rw [Wrim.readChar_eq]
  unfold readChar
  have hrp : (lift maxInt l).readPosition = (l.readPosition : Int) := wrap_of_le _ _ h
  have hin : (lift maxInt l).input = l.input := rfl
  rw [hrp, hin]
  have hinc : incr maxInt (l.readPosition : Int) = wrap maxInt (l.readPosition + 1) := by
    rw [← wrap_of_le maxInt _ h]; exact incr_wrap maxInt _ h
  have hpos : (l.readPosition : Int) = wrap maxInt l.readPosition := (wrap_of_le _ _ h).symm
  by_cases hge : l.input.length ≤ l.readPosition
  · rw [if_pos (by exact_mod_cast hge), hinc, List.getD_eq_default _ _ hge]
    simp only [Option.map_some', lift]
    rw [← hpos]
  · have hlt : l.readPosition < l.input.length := by omega
    rw [if_neg (by intro h'; exact hge (by exact_mod_cast h')), index_cast,
      List.getElem?_eq_getElem hlt, List.getD_eq_getElem _ _ hlt, hinc]
    simp only [Option.map_some', lift]
    rw [← hpos]

theorem readChar_atCursor (maxInt : Nat) (input : List Nat) (p : Nat) (d : Bool)
    (h : p < maxInt) :
    readChar maxInt (atCursor maxInt input p d) = some (atCursor maxInt input (p + 1) d) := by
  unfold atCursor
  rw [readChar_lift maxInt _ (show (atPos input p d).readPosition ≤ maxInt from h),
    Wrim.readChar_atPos]
  rfl

/-- With the cursor at `MaxInt`, `readPosition` has wrapped around to a
negative value and `readChar` panics on the byte index. -/
theorem readChar_wrapped (maxInt : Nat) (input : List Nat) (d : Bool) :
    readChar maxInt (atCursor maxInt input maxInt d) = none := by
  unfold readChar
  have hrp : (atCursor maxInt input maxInt d).readPosition = -((maxInt : Int) + 1) :=
    wrap_succ_max maxInt
  have hin : (atCursor maxInt input maxInt d).input = input := rfl
  rw [hrp, hin, if_neg (by omega), index_neg _ _ (by omega)]

theorem loopWhile_step (maxInt : Nat) (cond : Nat → Bool) (fuel : Nat) (l : Lexer) :
    loopWhile maxInt cond (fuel + 1) l =
      if cond l.ch then
        match readChar maxInt l with
        | none => none
        | some l' => loopWhile maxInt cond fuel l'
      else some l := rfl

/-- The loops read only within the input, so they never meet the wrap-around
when the input length fits in an `int`. -/
theorem loopWhile_lift (maxInt : Nat) (cond : Nat → Bool) (h0 : cond 0 = false)
    (input : List Nat) (d : Bool) (hlen : input.length ≤ maxInt) :
    ∀ (fuel p : Nat),
      loopWhile maxInt cond fuel (atCursor maxInt input p d) =
        (Wrim.loopWhile cond fuel (atPos input p d)).map (lift maxInt) := by
  intro fuel
  induction fuel with
  | zero => intro p; rfl
  | succ f ih =>
    intro p
    rw [loopWhile_step, Wrim.loopWhile_succ]
    have hch : (atCursor maxInt input p d).ch = (atPos input p d).ch := rfl
    rw [hch]
    by_cases hc : cond (atPos input p d).ch = true
    · have hlt : p < input.length := Wrim.getD_cond_lt cond h0 input p hc
      rw [if_pos hc, if_pos hc, readChar_atCursor maxInt input p d (by omega),
        Wrim.readChar_atPos]
      exact ih (p + 1)
    · rw [if_neg hc, if_neg hc]; rfl

theorem slice_cast (s : List Nat) (p q : Nat) :
    slice s (p : Int) (q : Int) = Wrim.slice s p q := by
  unfold slice Wrim.slice
  by_cases h : p ≤ q ∧ q ≤ s.length
  · rw [if_pos h, if_pos ⟨Int.ofNat_nonneg p, by exact_mod_cast h.1, by exact_mod_cast h.2⟩,
      Int.toNat_ofNat, Int.toNat_ofNat]
  · rw [if_neg h, if_neg]
    intro h'
    exact h ⟨by exact_mod_cast h'.2.1, by exact_mod_cast h'.2.2⟩

end Machine

/-- A `NextToken` call ends its whitespace skip within the input or where it
started, and ends one past the skip or within the input. -/
theorem NextToken_atPos_bound (LookupIdent : List Nat → TokenType) (input : List Nat)
    (d : Bool) (p : Nat) :
    ∃ tok p1 q, p ≤ p1 ∧ p1 < q ∧ p1 ≤ max p input.length ∧ q ≤ max (p1 + 1) input.length ∧
      (∀ i, i < p1 → p ≤ i → isWhitespace (input.getD i 0) = true) ∧
      isWhitespace (input.getD p1 0) = false ∧
      StepShape LookupIdent input p1 q tok ∧
      NextToken LookupIdent (atPos input p d) =
        some { tok := tok, lexer := atPos input q d, out := if d then [tok] else [] } := by
  obtain ⟨tok, p1, q, hp1, hq, hp1l, hws, hnw, hshape, hstep⟩ :=
    NextToken_atPos LookupIdent input d p
  refine ⟨tok, p1, q, hp1, hq, ?_, ?_, hws, hnw, hshape, hstep⟩
  · by_cases hpl : p ≤ input.length
    · have := hp1l hpl; omega
    · have hz : input.getD p 0 = 0 := List.getD_eq_default _ _ (by omega)
      have hpp : p1 = p := by
        by_contra hne
        have h := hws p (by omega) (Nat.le_refl _)
        rw [hz] at h
        exact absurd h (by decide)
      omega
  · rcases hshape with h | ⟨k, -, -, h⟩ | h | h | h
    · have := h.2.2; omega
    · omega
    · have := h.2.2.1; omega
    · have := h.2.2.1; omega
    · have := h.2.2.2.2.2; omega

namespace Machine

theorem New_eq_atCursor (maxInt : Nat) (input : List Nat) :
    New maxInt input = some (atCursor maxInt input 0 false) := by
  have h := readChar_lift maxInt
    { input := input, position := 0, readPosition := 0, ch := 0, Debug := false }
    (Nat.zero_le _)
  have hl : lift maxInt
      { input := input, position := 0, readPosition := 0, ch := 0, Debug := false } =
      { input := input, position := 0, readPosition := 0, ch := 0, Debug := false } := by
    simp [lift, wrap]
  rw [hl] at h
  unfold New
  rw [h]
  have := Wrim.New_eq input
  unfold Wrim.New at this
  rw [this]
  rfl

theorem finish_lift (maxInt : Nat) (input : List Nat) (p : Nat) (d : Bool) (tok : Token)
    (h : p < maxInt) :
    finish maxInt (atCursor maxInt input p d) tok =
      (Wrim.finish (atPos input p d) tok).map (liftStep maxInt) := by
  unfold finish Wrim.finish
  rw [readChar_atCursor maxInt input p d h, Wrim.readChar_atPos]
  rfl

theorem finish_wrapped (maxInt : Nat) (input : List Nat) (d : Bool) (tok : Token) :
    finish maxInt (atCursor maxInt input maxInt d) tok = none := by
  unfold finish
  rw [readChar_wrapped]

theorem readIdentifier_lift (maxInt : Nat) (input : List Nat) (p : Nat) (d : Bool)
    (hlen : input.length ≤ maxInt) (hp : p ≤ maxInt) :
    readIdentifier maxInt (atCursor maxInt input p d) =
      (Wrim.readIdentifier (atPos input p d)).map (fun r => (r.1, lift maxInt r.2)) := by
  obtain ⟨q, hpq, hql, hall, -, hrun⟩ :=
    Wrim.loopWhile_atPos isLetter Wrim.isLetter_zero input d (input.length + 2) p
      (by omega) (by omega)
  have hq : q ≤ maxInt := by
    by_cases hpl : p ≤ input.length
    · have := hql hpl; omega
    · have hz : input.getD p 0 = 0 := List.getD_eq_default _ _ (by omega)
      have hqp : q = p := by
        by_contra hne
        have h := hall p (by omega) (Nat.le_refl _)
        rw [hz] at h
        exact absurd h (by decide)
      omega
  unfold readIdentifier Wrim.readIdentifier
  have hb : budget (atCursor maxInt input p d) = Wrim.budget (atPos input p d) := rfl
  have hb' : Wrim.budget (atPos input p d) = input.length + 2 := rfl
  simp only [hb, loopWhile_lift maxInt isLetter Wrim.isLetter_zero input d hlen, hb', hrun,
    Option.map_some']
  have h1 : (lift maxInt (atPos input q d)).input = input := rfl
  have h2 : (lift maxInt (atPos input q d)).position = (q : Int) := wrap_of_le _ _ hq
  have h3 : (atCursor maxInt input p d).position = (p : Int) := wrap_of_le _ _ hp
  have h4 : (atPos input q d).input = input := rfl
  have h5 : (atPos input q d).position = q := rfl
  have h6 : (atPos input p d).position = p := rfl
  rw [h1, h2, h3, h4, h5, h6, slice_cast]
  cases Wrim.slice input p q <;> rfl

theorem readNumber_lift (maxInt : Nat) (input : List Nat) (p : Nat) (d : Bool)
    (hlen : input.length ≤ maxInt) (hp : p ≤ maxInt) :
    readNumber maxInt (atCursor maxInt input p d) =
      (Wrim.readNumber (atPos input p d)).map (fun r => (r.1, lift maxInt r.2)) := by
  obtain ⟨q, hpq, hql, hall, -, hrun⟩ :=
    Wrim.loopWhile_atPos isDigit Wrim.isDigit_zero input d (input.length + 2) p
      (by omega) (by omega)
  have hq : q ≤ maxInt := by
    by_cases hpl : p ≤ input.length
    · have := hql hpl; omega
    · have hz : input.getD p 0 = 0 := List.getD_eq_default _ _ (by omega)
      have hqp : q = p := by
        by_contra hne
        have h := hall p (by omega) (Nat.le_refl _)
        rw [hz] at h
        exact absurd h (by decide)
      omega
  unfold readNumber Wrim.readNumber
  have hb : budget (atCursor maxInt input p d) = Wrim.budget (atPos input p d) := rfl
  have hb' : Wrim.budget (atPos input p d) = input.length + 2 := rfl
  simp only [hb, loopWhile_lift maxInt isDigit Wrim.isDigit_zero input d hlen, hb', hrun,
    Option.map_some']
  have h1 : (lift maxInt (atPos input q d)).input = input := rfl
  have h2 : (lift maxInt (atPos input q d)).position = (q : Int) := wrap_of_le _ _ hq
  have h3 : (atCursor maxInt input p d).position = (p : Int) := wrap_of_le _ _ hp
  have h4 : (atPos input q d).input = input := rfl
  have h5 : (atPos input q d).position = q := rfl
  have h6 : (atPos input p d).position = p := rfl
  rw [h1, h2, h3, h4, h5, h6, slice_cast]
  cases Wrim.slice input p q <;> rfl

theorem skipWhitespace_lift (maxInt : Nat) (input : List Nat) (d : Bool) (p p1 : Nat)
    (hlen : input.length ≤ maxInt) (hp : p ≤ p1)
    (hws : ∀ i, i < p1 → p ≤ i → isWhitespace (input.getD i 0) = true)
    (hnw : isWhitespace (input.getD p1 0) = false) :
    skipWhitespace maxInt (atCursor maxInt input p d) = some (atCursor maxInt input p1 d) := by
  unfold skipWhitespace
  have hb : budget (atCursor maxInt input p d) = Wrim.budget (atPos input p d) := rfl
  rw [hb, loopWhile_lift maxInt isWhitespace Wrim.isWhitespace_zero input d hlen,
    Wrim.loopWhile_atPos_eq isWhitespace Wrim.isWhitespace_zero input d p p1 hp hws hnw]
  rfl

/-- A call whose whitespace skip ends below `MaxInt` behaves in the fixed-width
embedding exactly as in the first one. -/
theorem NextToken_lift (maxInt : Nat) (LookupIdent : List Nat → TokenType) (input : List Nat)
    (d : Bool) (p p1 : Nat) (hlen : input.length ≤ maxInt) (hp : p ≤ p1)
    (hws : ∀ i, i < p1 → p ≤ i → isWhitespace (input.getD i 0) = true)
    (hnw : isWhitespace (input.getD p1 0) = false) (hp1 : p1 < maxInt) :
    NextToken maxInt LookupIdent (atCursor maxInt input p d) =
      (Wrim.NextToken LookupIdent (atPos input p d)).map (liftStep maxInt) := by
  unfold NextToken Wrim.NextToken
  rw [skipWhitespace_lift maxInt input d p p1 hlen hp hws hnw,
    Wrim.skipWhitespace_atPos_eq input d p p1 hp hws hnw]
  simp only
  have hch : (atCursor maxInt input p1 d).ch = (atPos input p1 d).ch := rfl
  simp only [hch, finish_lift maxInt input p1 d _ hp1,
    readIdentifier_lift maxInt input p1 d hlen (Nat.le_of_lt hp1),
    readNumber_lift maxInt input p1 d hlen (Nat.le_of_lt hp1)]
  by_cases h0 : (atPos input p1 d).ch = 61
  · rw [if_pos h0, if_pos h0]
  rw [if_neg h0, if_neg h0]
  by_cases h1 : (atPos input p1 d).ch = 43
  · rw [if_pos h1, if_pos h1]
  rw [if_neg h1, if_neg h1]
  by_cases h2 : (atPos input p1 d).ch = 40
  · rw [if_pos h2, if_pos h2]
  rw [if_neg h2, if_neg h2]
  by_cases h3 : (atPos input p1 d).ch = 41
  · rw [if_pos h3, if_pos h3]
  rw [if_neg h3, if_neg h3]
  by_cases h4 : (atPos input p1 d).ch = 123
  · rw [if_pos h4, if_pos h4]
  rw [if_neg h4, if_neg h4]
  by_cases h5 : (atPos input p1 d).ch = 125
  · rw [if_pos h5, if_pos h5]
  rw [if_neg h5, if_neg h5]
  by_cases h6 : (atPos input p1 d).ch = 44
  · rw [if_pos h6, if_pos h6]
  rw [if_neg h6, if_neg h6]
  by_cases h7 : (atPos input p1 d).ch = 59
  · rw [if_pos h7, if_pos h7]
  rw [if_neg h7, if_neg h7]
  by_cases h8 : (atPos input p1 d).ch = 0
  · rw [if_pos h8, if_pos h8]
  rw [if_neg h8, if_neg h8]
  by_cases hl : isLetter (atPos input p1 d).ch = true
  · rw [if_pos hl, if_pos hl]
    cases Wrim.readIdentifier (atPos input p1 d) <;> rfl
  rw [if_neg hl, if_neg hl]
  by_cases hd : isDigit (atPos input p1 d).ch = true
  · rw [if_pos hd, if_pos hd]
    cases Wrim.readNumber (atPos input p1 d) <;> rfl
  rw [if_neg hd, if_neg hd]

/-- A call whose whitespace skip ends with the cursor at `MaxInt` panics:
the end-of-input branch runs `readChar` on the wrapped `readPosition`. -/
theorem NextToken_wrapped (maxInt : Nat) (LookupIdent : List Nat → TokenType)
    (input : List Nat) (d : Bool) (p : Nat) (hlen : input.length ≤ maxInt) (hp : p ≤ maxInt)
    (hws : ∀ i, i < maxInt → p ≤ i → isWhitespace (input.getD i 0) = true) :
    NextToken maxInt LookupIdent (atCursor maxInt input p d) = none := by
  have hz : input.getD maxInt 0 = 0 := List.getD_eq_default _ _ hlen
  unfold NextToken
  rw [skipWhitespace_lift maxInt input d p maxInt hlen hp hws (by rw [hz]; decide)]
  have hch : (atCursor maxInt input maxInt d).ch = 0 := hz
  simp only [hch, finish_wrapped]
  rfl

end Machine

namespace Machine

/-- Every call from a state of the reachable shape, in the fixed-width
embedding: it behaves as in the first embedding when its whitespace skip ends
below `MaxInt`, and panics when the skip ends with the cursor at `MaxInt`. -/
theorem NextToken_atCursor (maxInt : Nat) (LookupIdent : List Nat → TokenType)
    (input : List Nat) (d : Bool) (p : Nat) (hlen : input.length ≤ maxInt)
    (hp : p ≤ maxInt) :
    ∃ tok p1 q, p ≤ p1 ∧ p1 < q ∧ p1 ≤ max p input.length ∧
      q ≤ max (p1 + 1) input.length ∧
      (∀ i, i < p1 → p ≤ i → isWhitespace (input.getD i 0) = true) ∧
      isWhitespace (input.getD p1 0) = false ∧
      StepShape LookupIdent input p1 q tok ∧
      Wrim.NextToken LookupIdent (atPos input p d) =
        some { tok := tok, lexer := atPos input q d, out := if d then [tok] else [] } ∧
      ((p1 < maxInt ∧
          NextToken maxInt LookupIdent (atCursor maxInt input p d) =
            some { tok := tok, lexer := atCursor maxInt input q d,
                   out := if d then [tok] else [] }) ∨
        (p1 = maxInt ∧ NextToken maxInt LookupIdent (atCursor maxInt input p d) = none)) := by
  obtain ⟨tok, p1, q, hp1, hq, hp1m, hqm, hws, hnw, hshape, hstep⟩ :=
    Wrim.NextToken_atPos_bound LookupIdent input d p
  refine ⟨tok, p1, q, hp1, hq, hp1m, hqm, hws, hnw, hshape, hstep, ?_⟩
  by_cases hlt : p1 < maxInt
  · refine Or.inl ⟨hlt, ?_⟩
    rw [NextToken_lift maxInt LookupIdent input d p p1 hlen hp1 hws hnw hlt, hstep]
    rfl
  · have hpm : p1 = maxInt := by omega
    refine Or.inr ⟨hpm, ?_⟩
    rw [hpm] at hws
    exact NextToken_wrapped maxInt LookupIdent input d p hlen hp hws

theorem run_step (maxInt : Nat) (LookupIdent : List Nat → TokenType) (n : Nat) (l : Lexer) :
    run maxInt LookupIdent (n + 1) l =
      match NextToken maxInt LookupIdent l with
      | none => none
      | some s =>
        match run maxInt LookupIdent n s.lexer with
        | none => none
        | some (ts, l') => some (s.tok :: ts, l') := rfl

/-- Whatever a run of calls returns in the fixed-width embedding, the first
embedding returns too, and the state reached has the reachable shape with the
cursor at most at `MaxInt`. -/
theorem run_sound (maxInt : Nat) (LookupIdent : List Nat → TokenType) (input : List Nat)
    (d : Bool) (hlen : input.length ≤ maxInt) :
    ∀ (n p : Nat) (ts : List Token) (l : Lexer), p ≤ maxInt →
      run maxInt LookupIdent n (atCursor maxInt input p d) = some (ts, l) →
      ∃ q, p ≤ q ∧ q ≤ maxInt ∧ l = atCursor maxInt input q d ∧
        Wrim.run LookupIdent n (atPos input p d) = some (ts, atPos input q d) := by
  intro n
  induction n with
  | zero =>
    intro p ts l hp h
    simp only [run, Option.some.injEq, Prod.mk.injEq] at h
    exact ⟨p, Nat.le_refl _, hp, h.2.symm, by rw [← h.1]; rfl⟩
  | succ n ih =>
    intro p ts l hp h
    obtain ⟨tok, p1, q, hp1, hq, hp1m, hqm, -, -, -, hstep, hm⟩ :=
      NextToken_atCursor maxInt LookupIdent input d p hlen hp
    rcases hm with ⟨hlt, hms⟩ | ⟨-, hms⟩
    · rw [run_step, hms] at h
      simp only at h
      cases hr : run maxInt LookupIdent n (atCursor maxInt input q d) with
      | none => rw [hr] at h; exact absurd h (by simp)
      | some r =>
        obtain ⟨ts', l'⟩ := r
        rw [hr] at h
        simp only [Option.some.injEq, Prod.mk.injEq] at h
        obtain ⟨q', hqq, hq'm, hl', hrun⟩ := ih q ts' l' (by omega) hr
        refine ⟨q', by omega, hq'm, by rw [← h.2]; exact hl', ?_⟩
        rw [Wrim.run_succ, hstep]
        simp only [hrun]
        rw [← h.1]
    · rw [run_step, hms] at h
      exact absurd h (by simp)

/-- A run of `n` calls returns in the fixed-width embedding as long as the
cursor, which ends each call at most one past the larger of its start and the
input length, stays within `MaxInt`. -/
theorem run_complete (maxInt : Nat) (LookupIdent : List Nat → TokenType) (input : List Nat)
    (d : Bool) :
    ∀ (n p : Nat), max p input.length + n ≤ maxInt →
      ∃ ts q, p ≤ q ∧ q ≤ max p input.length + n ∧ ts.length = n ∧
        Wrim.run LookupIdent n (atPos input p d) = some (ts, atPos input q d) ∧
        run maxInt LookupIdent n (atCursor maxInt input p d) =
          some (ts, atCursor maxInt input q d) := by
  intro n
  induction n with
  | zero => intro p _; exact ⟨[], p, Nat.le_refl _, by omega, rfl, rfl, rfl⟩
  | succ n ih =>
    intro p hb
    obtain ⟨tok, p1, q, hp1, hq, hp1m, hqm, -, -, -, hstep, hm⟩ :=
      NextToken_atCursor maxInt LookupIdent input d p (by omega) (by omega)
    rcases hm with ⟨hlt, hms⟩ | ⟨hpm, -⟩
    · obtain ⟨ts, q', hqq, hq'b, hlen', hrun, hmrun⟩ := ih q (by omega)
      refine ⟨tok :: ts, q', by omega, by omega, by simp [hlen'], ?_, ?_⟩
      · rw [Wrim.run_succ, hstep]; simp only [hrun]
      · rw [run_step, hms]; simp only [hmrun]
    · omega

end Machine

theorem atPos_position_inj (input : List Nat) (d : Bool) (p q : Nat)
    (h : atPos input p d = atPos input q d) : p = q :=
  congrArg Lexer.position h

/-- Each call moves the cursor forward by at least one, so `n` calls move it
by at least `n`. -/
theorem run_progress (LookupIdent : List Nat → TokenType) (input : List Nat) (d : Bool) :
    ∀ (n p q : Nat) (ts : List Token),
      run LookupIdent n (atPos input p d) = some (ts, atPos input q d) → p + n ≤ q := by
  intro n
  induction n with
  | zero =>
    intro p q ts h
    simp only [run, Option.some.injEq, Prod.mk.injEq] at h
    have := atPos_position_inj input d p q h.2
    omega
  | succ n ih =>
    intro p q ts h
    obtain ⟨tok, p1, q1, hp1, hq1, -, -, -, -, hstep⟩ := NextToken_atPos LookupIdent input d p
    rw [run_succ, hstep] at h
    simp only at h
    cases hr : run LookupIdent n (atPos input q1 d) with
    | none => rw [hr] at h; exact absurd h (by simp)
    | some r =>
      obtain ⟨ts', l'⟩ := r
      rw [hr] at h
      simp only [Option.some.injEq, Prod.mk.injEq] at h
      rw [h.2] at hr
      have := ih q1 q ts' hr
      omega

namespace Machine

/-- One `readChar` step from any state: it panics exactly when `readPosition`
is negative. -/
theorem readChar_cases (maxInt : Nat) (l : Lexer) :
    (0 ≤ l.readPosition →
      readChar maxInt l =
        some { input := l.input, position := l.readPosition,
               readPosition := incr maxInt l.readPosition,
               ch := l.input.getD l.readPosition.toNat 0, Debug := l.Debug }) ∧
    (l.readPosition < 0 → readChar maxInt l = none) := by
  constructor
  · intro h
    obtain ⟨n, hn⟩ := Int.eq_ofNat_of_zero_le h
    unfold readChar
    rw [hn, Int.toNat_ofNat]
    by_cases hge : l.input.length ≤ n
    · rw [if_pos (by exact_mod_cast hge), List.getD_eq_default _ _ hge]
    · have hlt : n < l.input.length := by omega
      rw [if_neg (by intro h'; exact hge (by exact_mod_cast h')), index_cast,
        List.getElem?_eq_getElem hlt, List.getD_eq_getElem _ _ hlt]
  · intro h
    unfold readChar
    rw [if_neg (by have := Int.ofNat_nonneg l.input.length; omega), index_neg _ _ h]

/-- A call in a state whose current character is the sentinel, from any state:
the end-of-input branch, then one `readChar` step. -/
theorem NextToken_sentinel (maxInt : Nat) (LookupIdent : List Nat → TokenType) (l : Lexer)
    (hc : l.ch = 0) :
    NextToken maxInt LookupIdent l =
      (readChar maxInt l).map (fun l' =>
        { tok := { Typ := TokenType.EOF, Literal := [] }, lexer := l',
          out := if l.Debug then [{ Typ := TokenType.EOF, Literal := [] }] else [] }) := by
  have hskip : skipWhitespace maxInt l = some l := by
    unfold skipWhitespace budget
    rw [loopWhile_step, hc]
    rfl
  unfold NextToken
  rw [hskip]
  simp only [hc]
  unfold finish debugPrint
  cases readChar maxInt l <;> rfl

/-- The states reached from `New` by `NextToken` calls have the reachable
shape with the cursor at most at `MaxInt`. -/
theorem reached_shape (maxInt : Nat) (LookupIdent : List Nat → TokenType) (input : List Nat)
    (hlen : input.length ≤ maxInt) (n : Nat) (l0 : Lexer) (ts : List Token) (l : Lexer)
    (h0 : New maxInt input = some l0) (h : run maxInt LookupIdent n l0 = some (ts, l)) :
    ∃ q, n ≤ q ∧ q ≤ maxInt ∧ l = atCursor maxInt input q false ∧ ts.length = n := by
  rw [New_eq_atCursor] at h0
  simp only [Option.some.injEq] at h0
  rw [← h0] at h
  obtain ⟨q, -, hq, hl, hrun⟩ := run_sound maxInt LookupIdent input false hlen n 0 ts l
    (Nat.zero_le _) h
  have hprog := Wrim.run_progress LookupIdent input false n 0 q ts hrun
  obtain ⟨ts', q', -, hlen', hrun'⟩ := Wrim.run_atPos LookupIdent input false n 0
  rw [hrun] at hrun'
  simp only [Option.some.injEq, Prod.mk.injEq] at hrun'
  exact ⟨q, by omega, hq, hl, by rw [hrun'.1]; exact hlen'⟩

/-- After at most `MaxInt` calls the cursor has reached `MaxInt`, so call
number `MaxInt + 1` at the latest panics, whatever the input. -/
theorem run_overflow (maxInt : Nat) (LookupIdent : List Nat → TokenType) (input : List Nat)
    (hlen : input.length ≤ maxInt) :
    tokens maxInt LookupIdent input (maxInt + 1) = none := by
  unfold tokens
  rw [New_eq_atCursor]
  simp only
  cases hr : run maxInt LookupIdent (maxInt + 1) (atCursor maxInt input 0 false) with
  | none => rfl
  | some r =>
    obtain ⟨ts, l⟩ := r
    obtain ⟨q, hq1, hq2, -, -⟩ := reached_shape maxInt LookupIdent input hlen (maxInt + 1)
      _ ts l (New_eq_atCursor maxInt input) hr
    omega

/-- On the empty input the first `MaxInt` calls all return `EOF`. -/
theorem tokens_empty (maxInt : Nat) (LookupIdent : List Nat → TokenType) (n : Nat)
    (hn : n ≤ maxInt) :
    tokens maxInt LookupIdent [] n =
      some (List.replicate n { Typ := TokenType.EOF, Literal := [] }) := by
  obtain ⟨ts, q, -, -, -, hrun, hmrun⟩ := run_complete maxInt LookupIdent [] false n 0
    (by simpa using hn)
  rw [Wrim.run_past_end LookupIdent [] false n 0 (Nat.le_refl _)] at hrun
  simp only [Option.some.injEq, Prod.mk.injEq] at hrun
  unfold tokens
  rw [New_eq_atCursor]
  simp only [hmrun, Option.map_some', hrun.1]

end Machine

namespace Machine

theorem atCursor_position (maxInt : Nat) (input : List Nat) (p : Nat) (d : Bool)
    (h : p ≤ maxInt) : (atCursor maxInt input p d).position = (p : Int) :=
  wrap_of_le maxInt p h

theorem atCursor_readPosition (maxInt : Nat) (input : List Nat) (p : Nat) (d : Bool)
    (h : p ≤ maxInt) :
    (atCursor maxInt input p d).readPosition = incr maxInt (atCursor maxInt input p d).position := by
  rw [atCursor_position maxInt input p d h, ← wrap_of_le maxInt p h, incr_wrap maxInt p h]
  rfl

/-- Scanning up to the first `EOF` never meets the wrap-around when the input
is shorter than `MaxInt`. -/
theorem lexAll_lift (maxInt : Nat) (LookupIdent : List Nat → TokenType) (input : List Nat)
    (d : Bool) (hlen : input.length < maxInt) :
    ∀ (fuel p : Nat), p ≤ input.length →
      lexAll maxInt LookupIdent fuel (atCursor maxInt input p d) =
        Wrim.lexAll LookupIdent fuel (atPos input p d) := by
  intro fuel
  induction fuel with
  | zero => intro p _; rfl
  | succ f ih =>
    intro p hp
    obtain ⟨tok, p1, q, hp1, hq, hp1m, hqm, -, -, hshape, hstep, hm⟩ :=
      NextToken_atCursor maxInt LookupIdent input d p (by omega) (by omega)
    rcases hm with ⟨-, hms⟩ | ⟨hpm, -⟩
    · have e1 : lexAll maxInt LookupIdent (f + 1) (atCursor maxInt input p d) =
          if tok.Typ = TokenType.EOF then some [tok]
          else (lexAll maxInt LookupIdent f (atCursor maxInt input q d)).map
            (fun ts => tok :: ts) := by
        show (match NextToken maxInt LookupIdent (atCursor maxInt input p d) with
          | none => none
          | some s =>
            if s.tok.Typ = TokenType.EOF then some [s.tok]
            else (lexAll maxInt LookupIdent f s.lexer).map (fun ts => s.tok :: ts)) = _
        rw [hms]
      rw [e1, Wrim.lexAll_succ, hstep]
      simp only
      by_cases hty : tok.Typ = TokenType.EOF
      · rw [if_pos hty, if_pos hty]
      · rw [if_neg hty, if_neg hty,
          ih q (Wrim.StepShape_le_length LookupIdent input p1 q tok hshape hty)]
    · omega

/-- C2, as amended: for every input string without a zero byte whose length
fits in an `int`, and a keyword lookup that never answers `EOF`: whenever the
first `n` `NextToken` calls on `New(input)` return, then once one of them has
returned a token of kind `EOF` (which has empty `Literal`), every later one
also returned a token of kind `EOF` with empty `Literal`; and the first `n`
calls do return whenever `len(input) + n ≤ MaxInt`. -/
theorem C2_eof_sticky (maxInt : Nat) (LookupIdent : List Nat → TokenType)
    (hlk : ∀ s, LookupIdent s ≠ TokenType.EOF) (input : List Nat)
    (h0 : ∀ b ∈ input, b ≠ 0) (hlen : input.length ≤ maxInt) :
    (∀ n ts, tokens maxInt LookupIdent input n = some ts → ts.length = n ∧ EOFSticky ts) ∧
    (∀ n, input.length + n ≤ maxInt →
      ∃ ts, tokens maxInt LookupIdent input n = some ts) := by
  constructor
  · intro n ts h
    unfold tokens at h
    rw [New_eq_atCursor] at h
    simp only at h
    cases hr : run maxInt LookupIdent n (atCursor maxInt input 0 false) with
    | none => rw [hr] at h; exact absurd h (by simp)
    | some r =>
      obtain ⟨ts', l⟩ := r
      rw [hr] at h
      simp only [Option.map_some', Option.some.injEq] at h
      obtain ⟨q, -, -, -, hrun⟩ := run_sound maxInt LookupIdent input false hlen n 0 ts' l
        (Nat.zero_le _) hr
      obtain ⟨ts2, l2, hrun2, hl2, hst⟩ := Wrim.run_sticky LookupIdent hlk input h0 false n 0
      rw [hrun] at hrun2
      simp only [Option.some.injEq, Prod.mk.injEq] at hrun2
      rw [← h, hrun2.1]
      exact ⟨hl2, hst⟩
  · intro n hn
    obtain ⟨ts, q, -, -, -, -, hmrun⟩ := run_complete maxInt LookupIdent input false n 0
      (by simpa using hn)
    refine ⟨ts, ?_⟩
    unfold tokens
    rw [New_eq_atCursor]
    simp only [hmrun, Option.map_some']

/-- C2 at the input `a;` with 64-bit `int`: five calls return. -/
theorem C2_eof_sticky_witness :
    ∃ ts, tokens (2 ^ 63 - 1) sampleLookup [97, 59] 5 = some ts :=
  (C2_eof_sticky (2 ^ 63 - 1) sampleLookup sampleLookup_ne_EOF [97, 59] (by decide)
    (by decide)).2 5 (by decide)

/-- C2 as stated fails, with 64-bit `int`: on the two-byte input consisting of
a zero byte and `a`, the first call returns `EOF` and the second call returns
`IDENT("a")`; and on the empty input the first 2^63 - 1 calls all return `EOF`,
while a run of 2^63 calls does not return: its last call panics. -/
theorem C2_eof_sticky_counterexample :
    tokens (2 ^ 63 - 1) sampleLookup [0, 97] 2 =
      some [{ Typ := TokenType.EOF, Literal := [] },
            { Typ := TokenType.IDENT, Literal := [97] }] ∧
    tokens (2 ^ 63 - 1) sampleLookup [] (2 ^ 63 - 1) =
      some (List.replicate (2 ^ 63 - 1) { Typ := TokenType.EOF, Literal := [] }) ∧
    tokens (2 ^ 63 - 1) sampleLookup [] (2 ^ 63 - 1 + 1) = none :=
  ⟨by decide, tokens_empty (2 ^ 63 - 1) sampleLookup (2 ^ 63 - 1) (Nat.le_refl _),
    run_overflow (2 ^ 63 - 1) sampleLookup [] (by decide)⟩

end Machine

namespace Machine

/-- C13: cursor invariant, with Go's `int`.  For every input whose length fits
in an `int`: in the state returned by `New(input)` (`n = 0`) and in every state
reached from it by any number `n` of `NextToken` calls, the input is unchanged,
`position` is not negative, `readPosition` is Go's `position + 1` (equal to
`position + 1` as integers while `position < MaxInt`, and wrapped around to
`MinInt` at `position = MaxInt`), and `ch` is `input[position]` when
`position < len(input)` and the sentinel 0 when `position ≥ len(input)`.  Such
states exist for every `n` with `len(input) + n ≤ MaxInt`. -/
theorem C13_cursor_invariant (maxInt : Nat) (LookupIdent : List Nat → TokenType)
    (input : List Nat) (hlen : input.length ≤ maxInt) :
    (∀ n l0 ts l, New maxInt input = some l0 →
      run maxInt LookupIdent n l0 = some (ts, l) →
      l.input = input ∧ 0 ≤ l.position ∧
      l.readPosition = incr maxInt l.position ∧
      (l.position < (maxInt : Int) → l.readPosition = l.position + 1) ∧
      (∀ h : l.position.toNat < input.length, l.ch = input[l.position.toNat]) ∧
      ((input.length : Int) ≤ l.position → l.ch = 0)) ∧
    (∀ n, input.length + n ≤ maxInt →
      ∃ l0 ts l, New maxInt input = some l0 ∧ run maxInt LookupIdent n l0 = some (ts, l)) := by
  constructor
  · intro n l0 ts l h0 hrun
    obtain ⟨q, -, hq, hl, -⟩ := reached_shape maxInt LookupIdent input hlen n l0 ts l h0 hrun
    have hpos : l.position = (q : Int) := by rw [hl]; exact atCursor_position _ _ _ _ hq
    have hch : l.ch = input.getD q 0 := by rw [hl]; rfl
    refine ⟨by rw [hl]; rfl, by rw [hpos]; exact Int.ofNat_nonneg q,
      by rw [hl]; exact atCursor_readPosition _ _ _ _ hq, ?_, ?_, ?_⟩
    · intro hlt
      rw [hpos] at hlt
      have hq' : q < maxInt := by exact_mod_cast hlt
      have hrp : l.readPosition = wrap maxInt (q + 1) := by rw [hl]; rfl
      rw [hrp, hpos, wrap_of_le maxInt (q + 1) (by omega)]
      push_cast; rfl
    · intro h
      have ht : l.position.toNat = q := by rw [hpos, Int.toNat_ofNat]
      rw [hch]
      simp only [ht] at h ⊢
      exact List.getD_eq_getElem _ _ h
    · intro h
      rw [hpos] at h
      rw [hch]
      exact List.getD_eq_default _ _ (by exact_mod_cast h)
  · intro n hn
    obtain ⟨ts, q, -, -, -, -, hmrun⟩ := run_complete maxInt LookupIdent input false n 0
      (by simpa using hn)
    exact ⟨_, ts, _, New_eq_atCursor maxInt input, hmrun⟩

/-- C13 at the input `a;` with 64-bit `int`: the state after five calls
exists. -/
theorem C13_cursor_invariant_witness :
    ∃ l0 ts l, New (2 ^ 63 - 1) [97, 59] = some l0 ∧
      run (2 ^ 63 - 1) sampleLookup 5 l0 = some (ts, l) :=
  (C13_cursor_invariant (2 ^ 63 - 1) sampleLookup [97, 59] (by decide)).2 5 (by decide)

/-- C14, as amended: for every scanner state whose current character is the
end-of-input sentinel and whose `readPosition` is not negative, `NextToken`
returns `EOF` with empty `Literal` and runs one `readChar` step: `position`
becomes the old `readPosition`, `readPosition` is incremented (wrapping around
at `MaxInt`), and `ch` becomes `input[readPosition]`, or the sentinel when
`readPosition ≥ len(input)`.  With a negative `readPosition` the call panics.
So in every state of the shape reached from `New` with `position + 1 < MaxInt`,
`position` and `readPosition` each advance by exactly one, and `ch` is the
sentinel again when `position` was at or past the end of the input. -/
theorem C14_eof_advances (maxInt : Nat) (LookupIdent : List Nat → TokenType) (l : Lexer)
    (hc : l.ch = 0) :
    (0 ≤ l.readPosition →
      NextToken maxInt LookupIdent l =
        some { tok := { Typ := TokenType.EOF, Literal := [] },
               lexer := { input := l.input, position := l.readPosition,
                          readPosition := incr maxInt l.readPosition,
                          ch := l.input.getD l.readPosition.toNat 0, Debug := l.Debug },
               out := if l.Debug then [{ Typ := TokenType.EOF, Literal := [] }] else [] }) ∧
    (l.readPosition < 0 → NextToken maxInt LookupIdent l = none) ∧
    (∀ p : Nat, l.position = (p : Int) → l.readPosition = (p : Int) + 1 → p + 1 < maxInt →
      NextToken maxInt LookupIdent l =
        some { tok := { Typ := TokenType.EOF, Literal := [] },
               lexer := { input := l.input, position := (p : Int) + 1,
                          readPosition := (p : Int) + 2,
                          ch := l.input.getD (p + 1) 0, Debug := l.Debug },
               out := if l.Debug then [{ Typ := TokenType.EOF, Literal := [] }] else [] } ∧
      (l.input.length ≤ p → l.input.getD (p + 1) 0 = 0)) := by
  have hN := NextToken_sentinel maxInt LookupIdent l hc
  refine ⟨?_, ?_, ?_⟩
  · intro h
    rw [hN, (readChar_cases maxInt l).1 h]
    rfl
  · intro h
    rw [hN, (readChar_cases maxInt l).2 h]
    rfl
  · intro p _ hrp hp
    have h : 0 ≤ l.readPosition := by rw [hrp]; omega
    have hinc : incr maxInt l.readPosition = (p : Int) + 2 := by
      rw [hrp]
      unfold incr
      rw [if_neg (by omega)]
      omega
    have htn : l.readPosition.toNat = p + 1 := by
      rw [hrp]; omega
    refine ⟨?_, fun hle => List.getD_eq_default _ _ (by omega)⟩
    rw [hN, (readChar_cases maxInt l).1 h, hinc, htn, hrp]
    rfl

/-- C14 at the end of the input `a`, with 64-bit `int`. -/
theorem C14_eof_advances_witness :
    NextToken (2 ^ 63 - 1) sampleLookup
        { input := [97], position := 1, readPosition := 2, ch := 0, Debug := false } =
      some { tok := { Typ := TokenType.EOF, Literal := [] },
             lexer := { input := [97], position := 2, readPosition := 3, ch := 0,
                        Debug := false },
             out := [] } :=
  ((C14_eof_advances (2 ^ 63 - 1) sampleLookup
    { input := [97], position := 1, readPosition := 2, ch := 0, Debug := false }
    rfl).2.2 1 rfl rfl (by decide)).1

end Machine

namespace Machine

/-- C15: the scanner is forward-moving, with Go's `int`.  For every input whose
length fits in an `int`: every state reached from `New(input)` by `NextToken`
calls has the reachable shape with the cursor `p ≤ MaxInt`; and from every
state of that shape, a `readChar` step that returns, a `NextToken` call that
returns, and any number of `NextToken` calls that return each leave `position`
greater than or equal to what it was, also at or past the end of the input.
(At `position = MaxInt` no step returns: `readPosition` has wrapped around and
the byte index panics; below it, with the input shorter than `MaxInt`, every
step and call returns.)  The `readChar` step inside `New` starts and ends at
position 0. -/
theorem C15_forward_moving (maxInt : Nat) (LookupIdent : List Nat → TokenType)
    (input : List Nat) (hlen : input.length ≤ maxInt) :
    (∀ n l0 ts l, New maxInt input = some l0 →
      run maxInt LookupIdent n l0 = some (ts, l) →
      ∃ p, p ≤ maxInt ∧ l = atCursor maxInt input p false) ∧
    (∀ p d, p ≤ maxInt →
      (∀ l, readChar maxInt (atCursor maxInt input p d) = some l →
        (atCursor maxInt input p d).position ≤ l.position) ∧
      (∀ s, NextToken maxInt LookupIdent (atCursor maxInt input p d) = some s →
        (atCursor maxInt input p d).position ≤ s.lexer.position) ∧
      (∀ n ts l, run maxInt LookupIdent n (atCursor maxInt input p d) = some (ts, l) →
        (atCursor maxInt input p d).position ≤ l.position)) ∧
    (∀ p d, p < maxInt → input.length < maxInt →
      (∃ l, readChar maxInt (atCursor maxInt input p d) = some l) ∧
      (∃ s, NextToken maxInt LookupIdent (atCursor maxInt input p d) = some s)) ∧
    (∃ l0, New maxInt input = some l0 ∧ l0.position = 0) := by
  refine ⟨?_, ?_, ?_, ⟨_, New_eq_atCursor maxInt input, ?_⟩⟩
  · intro n l0 ts l h0 hrun
    obtain ⟨q, -, hq, hl, -⟩ := reached_shape maxInt LookupIdent input hlen n l0 ts l h0 hrun
    exact ⟨q, hq, hl⟩
  · intro p d hp
    have hpos := atCursor_position maxInt input p d hp
    refine ⟨?_, ?_, ?_⟩
    · intro l hl
      by_cases hlt : p < maxInt
      · rw [readChar_atCursor maxInt input p d hlt] at hl
        simp only [Option.some.injEq] at hl
        rw [← hl, hpos, atCursor_position maxInt input (p + 1) d (by omega)]
        push_cast; omega
      · have hpm : p = maxInt := by omega
        rw [hpm, readChar_wrapped] at hl
        exact absurd hl (by simp)
    · intro s hs
      obtain ⟨tok, p1, q, hp1, hq, hp1m, hqm, -, -, -, -, hm⟩ :=
        NextToken_atCursor maxInt LookupIdent input d p hlen hp
      rcases hm with ⟨hlt, hms⟩ | ⟨-, hms⟩
      · rw [hms] at hs
        simp only [Option.some.injEq] at hs
        rw [← hs, hpos]
        show (p : Int) ≤ (atCursor maxInt input q d).position
        rw [atCursor_position maxInt input q d (by omega)]
        exact_mod_cast (by omega : p ≤ q)
      · rw [hms] at hs
        exact absurd hs (by simp)
    · intro n ts l hrun
      obtain ⟨q, hpq, hq, hl, -⟩ := run_sound maxInt LookupIdent input d hlen n p ts l hp hrun
      rw [hl, hpos, atCursor_position maxInt input q d hq]
      exact_mod_cast hpq
  · intro p d hp hlen'
    refine ⟨⟨_, readChar_atCursor maxInt input p d hp⟩, ?_⟩
    obtain ⟨tok, p1, q, -, -, hp1m, -, -, -, -, -, hm⟩ :=
      NextToken_atCursor maxInt LookupIdent input d p hlen (by omega)
    rcases hm with ⟨-, hms⟩ | ⟨hpm, -⟩
    · exact ⟨_, hms⟩
    · omega
  · exact atCursor_position maxInt input 0 false (Nat.zero_le _)

/-- C15 at the input `a;` with 64-bit `int`: from the cursor at 1, a call
returns. -/
theorem C15_forward_moving_witness :
    ∃ s, NextToken (2 ^ 63 - 1) sampleLookup (atCursor (2 ^ 63 - 1) [97, 59] 1 false) =
      some s :=
  ((C15_forward_moving (2 ^ 63 - 1) sampleLookup [97, 59] (by decide)).2.2.1 1 false
    (by decide) (by decide)).2

/-- C19, as amended: progress and bounded output, with Go's `int`.  For every
input shorter than `MaxInt`: every `NextToken` call made in a state reached
from `New(input)` whose `position` is below `MaxInt` returns and leaves
`position` at least one greater than before; and the calls on `New(input)`
return a token of kind `EOF` after at most `len(input)` tokens of other kinds,
so at call `len(input) + 1` at the latest (with or without zero bytes in the
input). -/
theorem C19_progress_bounded (maxInt : Nat) (LookupIdent : List Nat → TokenType)
    (input : List Nat) (hlen : input.length < maxInt) :
    (∀ n l0 ts l, New maxInt input = some l0 →
      run maxInt LookupIdent n l0 = some (ts, l) → l.position < (maxInt : Int) →
      ∃ s, NextToken maxInt LookupIdent l = some s ∧ l.position + 1 ≤ s.lexer.position) ∧
    (∃ pre e, scan maxInt LookupIdent input = some (pre ++ [e]) ∧ e.Typ = TokenType.EOF ∧
      (∀ t ∈ pre, t.Typ ≠ TokenType.EOF) ∧ pre.length ≤ input.length) := by
  constructor
  · intro n l0 ts l h0 hrun hpos
    obtain ⟨q, -, hq, hl, -⟩ := reached_shape maxInt LookupIdent input (by omega) n l0 ts l
      h0 hrun
    have hposq := atCursor_position maxInt input q false hq
    rw [hl, hposq] at hpos
    have hq' : q < maxInt := by exact_mod_cast hpos
    obtain ⟨tok, p1, q1, hp1, hq1, hp1m, hqm, -, -, -, -, hm⟩ :=
      NextToken_atCursor maxInt LookupIdent input false q (by omega) hq
    rcases hm with ⟨hlt, hms⟩ | ⟨hpm, -⟩
    · refine ⟨_, by rw [hl]; exact hms, ?_⟩
      rw [hl, hposq]
      show (q : Int) + 1 ≤ (atCursor maxInt input q1 false).position
      rw [atCursor_position maxInt input q1 false (by omega)]
      exact_mod_cast (by omega : q + 1 ≤ q1)
    · omega
  · obtain ⟨pre, e, hrun, he, hpre, hl⟩ :=
      Wrim.lexAll_total LookupIdent input false (input.length + 1) 0 (Nat.zero_le _)
        (by omega)
    refine ⟨pre, e, ?_, he, hpre, by omega⟩
    unfold scan
    rw [New_eq_atCursor]
    simp only
    rw [lexAll_lift maxInt LookupIdent input false hlen (input.length + 1) 0 (Nat.zero_le _)]
    exact hrun

/-- C19 at the input `a;` with 64-bit `int`: the scan ends in `EOF` after at
most two other tokens. -/
theorem C19_progress_bounded_witness :
    ∃ pre e, scan (2 ^ 63 - 1) sampleLookup [97, 59] = some (pre ++ [e]) ∧
      e.Typ = TokenType.EOF ∧ (∀ t ∈ pre, t.Typ ≠ TokenType.EOF) ∧
      pre.length ≤ [97, 59].length :=
  (C19_progress_bounded (2 ^ 63 - 1) sampleLookup [97, 59] (by decide)).2

/-- C19 as stated fails: with 64-bit `int`, the state reached from `New("")` by
2^63 - 1 calls has `position = MaxInt`, and the `NextToken` call made there
does not return (so it does not increase `position`). -/
theorem C19_progress_bounded_counterexample :
    ∃ l0 ts, New (2 ^ 63 - 1) [] = some l0 ∧
      run (2 ^ 63 - 1) sampleLookup (2 ^ 63 - 1) l0 =
        some (ts, { input := [], position := 2 ^ 63 - 1, readPosition := -(2 ^ 63),
                    ch := 0, Debug := false }) ∧
      NextToken (2 ^ 63 - 1) sampleLookup
        { input := [], position := 2 ^ 63 - 1, readPosition := -(2 ^ 63),
          ch := 0, Debug := false } = none := by
  obtain ⟨ts, q, hq1, hq2, -, hrun, hmrun⟩ :=
    run_complete (2 ^ 63 - 1) sampleLookup [] false (2 ^ 63 - 1) 0 (by decide)
  have hprog := Wrim.run_progress sampleLookup [] false (2 ^ 63 - 1) 0 q ts hrun
  have hq : q = 2 ^ 63 - 1 := by
    simp only [List.length_nil, Nat.max_self, Nat.zero_add] at hq2
    omega
  rw [hq] at hmrun
  have hst : atCursor (2 ^ 63 - 1) [] (2 ^ 63 - 1) false =
      { input := [], position := 2 ^ 63 - 1, readPosition := -(2 ^ 63),
        ch := 0, Debug := false } := by decide
  rw [hst] at hmrun
  exact ⟨_, ts, New_eq_atCursor _ _, hmrun, by decide⟩

end Machine

end Wrim
